import Mathlib

/-!
Verification of the Lisp interpreter runtime (lisp.hpp, lisp-pr.c).

Values are NaN-boxed IEEE-754 doubles.  We model a value by its 64-bit
encoding as a natural number e < 2^64.  `T(x)` (`*(uint64_t*)&x >> 48`)
is `tagOf`, `ord(x)` (the low 32 bits, narrowed from uint64 to uint32)
is `ordOf`, and `box(t,i)` (`(uint64_t)t << 48 | i` with `i : uint32`)
is `boxE`.
-/

/-- Tag of the primitive kind (`PRIM = 0x7ff9`). -/
def tPRIM : ℕ := 0x7ff9

/-- Tag of the atom kind (`ATOM = 0x7ffa`). -/
def tATOM : ℕ := 0x7ffa

/-- Tag of the string kind (`STRG = 0x7ffb`). -/
def tSTRG : ℕ := 0x7ffb

/-- Tag of the cons kind (`CONS = 0x7ffc`). -/
def tCONS : ℕ := 0x7ffc

/-- Tag of the closure kind (`CLOS = 0x7ffe`). -/
def tCLOS : ℕ := 0x7ffe

/-- Tag of the macro kind (`MACR = 0x7fff`). -/
def tMACR : ℕ := 0x7fff

/-- Tag of nil (`NIL = 0xffff`). -/
def tNIL : ℕ := 0xffff

/-- Tag bits of an encoded value: `T(x) = *(uint64_t*)&x >> 48`. -/
def tagOf (e : ℕ) : ℕ := e / 2 ^ 48

/-- Ordinal of an encoded value: `ord(x)` returns `*(uint64_t*)&x`
narrowed to a 32-bit unsigned integer. -/
def ordOf (e : ℕ) : ℕ := e % 2 ^ 32

/-- NaN boxing: `box(t,i) = (uint64_t)t << 48 | i` with `i` a uint32. -/
def boxE (t i : ℕ) : ℕ := t * 2 ^ 48 + i % 2 ^ 32

/-- Test `(T(x) & ~(CONS^MACR)) == CONS`: the tag is one of
CONS (0x7ffc), 0x7ffd, CLOS (0x7ffe), MACR (0x7fff), i.e. the value
refers to a pair in the pool. -/
def isPairRef (e : ℕ) : Bool := tagOf e / 4 = 0x1fff

/-- Test `(T(x) & ~(ATOM^STRG)) == ATOM`: the tag is ATOM (0x7ffa) or
STRG (0x7ffb), i.e. the value refers to the atom/string heap. -/
def isHeapRef (e : ℕ) : Bool := tagOf e / 2 = 0x3ffd

/-- A double bit pattern is an IEEE-754 NaN: exponent bits all ones and
nonzero mantissa.  `x == x` in C is false exactly for these patterns. -/
def isNaNBits (e : ℕ) : Bool := (e / 2 ^ 52) % 2 ^ 11 = 0x7ff ∧ e % 2 ^ 52 ≠ 0

/-- Signed reading of a 64-bit pattern, as in `*(int64_t*)&x`. -/
def sint64 (e : ℕ) : ℤ := if e < 2 ^ 63 then (e : ℤ) else (e : ℤ) - 2 ^ 64

/-- IEEE-754 comparison `x < y` on two non-NaN double bit patterns:
sign-magnitude order, with `+0.0 = -0.0`.  (On NaN inputs the C
comparison is false; callers below only reach this after the
`x == x && y == y` guard, so NaN handling is irrelevant there.) -/
def ieeeLt (a b : ℕ) : Bool :=
  let sa := a / 2 ^ 63
  let sb := b / 2 ^ 63
  let ma := a % 2 ^ 63
  let mb := b % 2 ^ 63
  if sa = 0 then (if sb = 0 then ma < mb else False)
  else (if sb = 0 then ¬(ma = 0 ∧ mb = 0) else mb < ma)

/-- Lexicographic byte comparison `strcmp(a, b) < 0` on NUL-free byte
lists (strcmp compares as unsigned char; a proper prefix is smaller). -/
def strLtB : List ℕ → List ℕ → Bool
  | [], [] => false
  | [], _ :: _ => true
  | _ :: _, [] => false
  | a :: as, b :: bs => if a < b then true else if a = b then strLtB as bs else false

/-!
The comparison primitives of lisp.hpp.  The heap byte contents are
abstracted by a function `strAt : ℕ → List ℕ` giving the NUL-terminated
byte string stored at a heap offset (`A + i`).
-/

/-- Embedding of `f_eq` from lisp.hpp (lines 629-632): byte-content
comparison when both operands are strings, otherwise `equ`, which is
bit equality of the 64-bit encodings. -/
def fEqHpp (strAt : ℕ → List ℕ) (x y : ℕ) : Bool :=
  if tagOf x = tSTRG ∧ tagOf y = tSTRG then strAt (ordOf x) = strAt (ordOf y)
  else x = y

/-- Embedding of `f_eq` from lisp-pr.c (lines 593-595): plain `equ`,
bit equality of the 64-bit encodings, with no refinement for strings. -/
def fEqPr (x y : ℕ) : Bool := x = y

/-- Embedding of `f_lt` from lisp.hpp (lines 622-627):
`T(x) == T(y) && (T(x) & ~(ATOM^STRG)) == ATOM` selects `strcmp < 0`;
otherwise `x == x && y == y` (neither NaN) selects the IEEE `<`;
otherwise the encodings are compared as signed `int64_t`. -/
def fLtHpp (strAt : ℕ → List ℕ) (x y : ℕ) : Bool :=
  if tagOf x = tagOf y ∧ isHeapRef x then strLtB (strAt (ordOf x)) (strAt (ordOf y))
  else if ¬isNaNBits x ∧ ¬isNaNBits y then ieeeLt x y
  else sint64 x < sint64 y

/-- Embedding of `f_type` from lisp.hpp (lines 568-571): the result is
`T(x) == NIL ? -1.0 : T(x) >= PRIM && T(x) <= MACR ? T(x) - PRIM + 1 : 0.0`
(returned as a Lisp number; we model the integer it denotes). -/
def fTypeHpp (x : ℕ) : ℤ :=
  if tagOf x = tNIL then -1
  else if tPRIM ≤ tagOf x ∧ tagOf x ≤ tMACR then (tagOf x : ℤ) - tPRIM + 1
  else 0

/-- Embedding of `f_type` from lisp-pr.c (lines 531-534): the result is
`T(x) == NIL ? 0 : T(x) >= ATOM && T(x) <= MACR ? T(x) - ATOM + 2 : 1`. -/
def fTypePr (x : ℕ) : ℤ :=
  if tagOf x = tNIL then 0
  else if tATOM ≤ tagOf x ∧ tagOf x ≤ tMACR then (tagOf x : ℤ) - tATOM + 2
  else 1

/-- The kinds of Lisp values. -/
inductive VKind where
  | knil | knum | kprim | katom | kstrg | kcons | kclos | kmacr
  deriving DecidableEq, Repr

/-- Kind of a 64-bit encoding: every bit pattern whose tag is not one of
the seven reserved tags is an IEEE double, i.e. a Number (this includes
NaN patterns such as 0x7ff8... produced by arithmetic). -/
def kindOf (e : ℕ) : VKind :=
  if tagOf e = tNIL then .knil
  else if tagOf e = tPRIM then .kprim
  else if tagOf e = tATOM then .katom
  else if tagOf e = tSTRG then .kstrg
  else if tagOf e = tCONS then .kcons
  else if tagOf e = tCLOS then .kclos
  else if tagOf e = tMACR then .kmacr
  else .knum

/-- The type-code table claimed by the spec:
Nil = -1, Number = 0, Primitive = 1, Atom = 2, String = 3, Cons = 4,
Closure = 6, Macro = 7. -/
def specTypeCode : VKind → ℤ
  | .knil => -1
  | .knum => 0
  | .kprim => 1
  | .katom => 2
  | .kstrg => 3
  | .kcons => 4
  | .kclos => 6
  | .kmacr => 7

/-- Claim C4 as stated: `(< x y)` is #t exactly when both are Numbers
and x is IEEE-less-than y, or both are Atoms or both are Strings and
the bytes compare lexicographically, or otherwise the encodings compare
as UNSIGNED 64-bit integers. -/
def c4ClaimPred (strAt : ℕ → List ℕ) (x y : ℕ) : Bool :=
  if kindOf x = .knum ∧ kindOf y = .knum then ieeeLt x y
  else if (kindOf x = .katom ∧ kindOf y = .katom) ∨
          (kindOf x = .kstrg ∧ kindOf y = .kstrg) then
    strLtB (strAt (ordOf x)) (strAt (ordOf y))
  else x < y

/-- Encoding of the empty list `()` : `box(NIL, 0)`. -/
def nilE : ℕ := boxE tNIL 0

/-- Bit pattern of the IEEE double 1.0. -/
def oneE : ℕ := 0x3ff0000000000000

/-- Bit pattern of the quiet NaN 0x7ff8000000000000 (the default NaN
produced by 0.0/0.0), a value of kind Number. -/
def qnanE : ℕ := boxE 0x7ff8 0

/-- The type-code table of lisp-pr.c, for comparison:
Nil = 0, Number = 1, Primitive = 1, Atom = 2, String = 3, Cons = 4,
Closure = 6, Macro = 7. -/
def prTypeCode : VKind → ℤ
  | .knil => 0
  | .knum => 1
  | .kprim => 1
  | .katom => 2
  | .kstrg => 3
  | .kcons => 4
  | .kclos => 6
  | .kmacr => 7

/-!
Tree-level model of Lisp expressions for the evaluator fragments
(claims C7 and C8).  A `Sexp` is a value tree: atoms and strings carry
their bytes, numbers carry their 64-bit pattern, conses (and the pairs
underlying closures and macros) carry their two fields.  `equ`
(bit equality) is modelled by decidable equality of trees, which agrees
with `equ` on the atoms compared by `assoc`/`setq` since atoms are
interned.
-/

inductive Sexp where
  | snil
  | num (bits : ℕ)
  | prim (i : ℕ)
  | atom (s : List ℕ)
  | sstr (s : List ℕ)
  | cons (a d : Sexp)
  | clos (a d : Sexp)
  | macr (a d : Sexp)
  deriving DecidableEq, Repr

/-- The `car` function: `(T(p) & ~(CONS^MACR)) == CONS ? CAR(p) : err(1)`;
closures and macros are pairs too. -/
def carE : Sexp → Except ℕ Sexp
  | .cons a _ => .ok a
  | .clos a _ => .ok a
  | .macr a _ => .ok a
  | _ => .error 1

/-- The `cdr` function: `(T(p) & ~(CONS^MACR)) == CONS ? CDR(p) : err(1)`. -/
def cdrE : Sexp → Except ℕ Sexp
  | .cons _ d => .ok d
  | .clos _ d => .ok d
  | .macr _ d => .ok d
  | _ => .error 1

/-- `pair(v, x, e) = cons(cons(v, x), e)`. -/
def pairS (v x e : Sexp) : Sexp := .cons (.cons v x) e

/-- The `assoc` function of lisp.hpp (lines 377-381): walk the
environment list while the entry name differs from `v`; return the
value of the first match, raise error 3 (unbound symbol) at the end of
the list; `car(car(e))` raises error 1 on a non-pair entry. -/
def assocE (v : Sexp) : Sexp → Except ℕ Sexp
  | .cons (.cons a b) ed => if a = v then .ok b else assocE v ed
  | .cons _ _ => .error 1
  | _ => .error 3

/-- The fragment of `step` used on variables and self-evaluating
values: an atom evaluates via `assoc`, a non-atom non-cons value
evaluates to itself.  (Applications are outside this fragment; the
instances below never reach that case.) -/
def evalVarStep (x e : Sexp) : Except ℕ Sexp :=
  match x with
  | .atom s => assocE (.atom s) e
  | .cons _ _ => .error 4
  | x => .ok x

/-- First binding loop of `step` (lisp.hpp lines 955-959): while both
the parameter list and the argument list are pairs, evaluate the next
argument in the caller environment `e` and prepend the binding to `d`. -/
def bindLoop1 (ev : Sexp → Sexp → Except ℕ Sexp) (e : Sexp) :
    Sexp → Sexp → Sexp → Except ℕ (Sexp × Sexp × Sexp)
  | .cons va vd, .cons xa xd, d => do
      let xv ← ev xa e
      bindLoop1 ev e vd xd (pairS va xv d)
  | v, x, d => .ok (v, x, d)

/-- Second binding loop of `step` (lisp.hpp lines 962-966): bind the
remaining parameters against the already-evaluated list `y`. -/
def bindLoop2 : Sexp → Sexp → Sexp → Sexp × Sexp × Sexp
  | .cons va vd, .cons ya yd, d => bindLoop2 vd yd (pairS va ya d)
  | v, y, d => (v, y, d)

/-- The `evlis` of lisp.hpp (lines 557-566): evaluate each element of a
list; a list ending in an atom gets the atom's `assoc` value as tail;
any other non-nil tail is dropped (the new list ends in nil). -/
def evlisEHpp (ev : Sexp → Sexp → Except ℕ Sexp) (e : Sexp) :
    Sexp → Except ℕ Sexp
  | .cons a t => do
      let va ← ev a e
      let rest ← evlisEHpp ev e t
      .ok (.cons va rest)
  | .atom s => assocE (.atom s) e
  | _ => .ok .snil

/-- The `evlis` of lisp-pr.c (lines 520-529): evaluate each element;
any non-nil tail is evaluated with `eval` to become the new tail. -/
def evlisEPr (ev : Sexp → Sexp → Except ℕ Sexp) (e : Sexp) :
    Sexp → Except ℕ Sexp
  | .cons a t => do
      let va ← ev a e
      let rest ← evlisEPr ev e t
      .ok (.cons va rest)
  | .snil => .ok .snil
  | t => ev t e

/-- Common final step of closure binding: `if (T(v) != NIL)
*d = pair(v, x, *d)` — a trailing rest-parameter is bound to `x`. -/
def bindTail (v x d : Sexp) : Sexp :=
  match v with
  | .snil => d
  | _ => pairS v x d

/-- Closure parameter binding of lisp.hpp `step` (lines 950-976),
starting from parameter list `v`, argument list `x`, caller
environment `e` and callee environment `d`; returns the extended
environment.  When parameters remain after the arguments (and the
evaluated dotted tail) are exhausted, it raises `err(4)`. -/
def closBindHpp (ev : Sexp → Sexp → Except ℕ Sexp) (v x e d : Sexp) :
    Except ℕ Sexp := do
  let (v1, x1, d1) ← bindLoop1 ev e v x d
  match v1 with
  | .cons _ _ => do
      let y ← ev x1 e
      let (v2, y2, d2) := bindLoop2 v1 y d1
      match v2 with
      | .cons _ _ => .error 4
      | _ => .ok (bindTail v2 y2 d2)
  | _ =>
      match x1 with
      | .cons _ _ => do
          let xs ← evlisEHpp ev e x1
          .ok (bindTail v1 xs d1)
      | .snil => .ok (bindTail v1 .snil d1)
      | _ => do
          let xv ← ev x1 e
          .ok (bindTail v1 xv d1)

/-- Closure parameter binding of lisp-pr.c `step` (lines 877-904); the
same algorithm, except that exhausted arguments raise
`ERROR_ARGUMENTS`, i.e. `err(5)`, and the trailing argument list is
evaluated with lisp-pr.c's `evlis`. -/
def closBindPr (ev : Sexp → Sexp → Except ℕ Sexp) (v x e d : Sexp) :
    Except ℕ Sexp := do
  let (v1, x1, d1) ← bindLoop1 ev e v x d
  match v1 with
  | .cons _ _ => do
      let y ← ev x1 e
      let (v2, y2, d2) := bindLoop2 v1 y d1
      match v2 with
      | .cons _ _ => .error 5
      | _ => .ok (bindTail v2 y2 d2)
  | _ =>
      match x1 with
      | .cons _ _ => do
          let xs ← evlisEPr ev e x1
          .ok (bindTail v1 xs d1)
      | .snil => .ok (bindTail v1 .snil d1)
      | _ => do
          let xv ← ev x1 e
          .ok (bindTail v1 xv d1)

/-- Proper Lisp list of the given elements. -/
def listS (l : List Sexp) : Sexp := l.foldr .cons .snil

/-- The `f_setq` of lisp.hpp (lines 727-732): evaluate the right-hand
side first in the current environment, then walk the environment and
overwrite the value of the first entry whose name is `equ` to the
symbol; error 3 if the walk exhausts the environment.  In the tree
model the in-place `CDR(car(d)) = x` becomes rebuilding the entry; the
function returns the updated environment and the stored value. -/
def setqWalk (v x : Sexp) : Sexp → Except ℕ (Sexp × Sexp)
  | .cons (.cons a b) dd =>
      if a = v then .ok (.cons (.cons a x) dd, x)
      else do
        let (dd2, r) ← setqWalk v x dd
        .ok (.cons (.cons a b) dd2, r)
  | .cons _ _ => .error 1
  | _ => .error 3

/-- Embedding of lisp.hpp `f_setq`: `L x = eval(car(cdr(t)), *e),
v = car(t), d = *e;` then the walk. -/
def fSetqHpp (ev : Sexp → Sexp → Except ℕ Sexp) (t e : Sexp) :
    Except ℕ (Sexp × Sexp) := do
  let td ← cdrE t
  let rhs ← carE td
  let x ← ev rhs e
  let v ← carE t
  setqWalk v x e

/-- The walk of lisp-pr.c `f_setq` (lines 687-692): find the binding
first, and only then evaluate the right-hand side — with the constant
`1` (the number 1.0) passed as the environment. -/
def setqWalkPr (ev : Sexp → Sexp → Except ℕ Sexp) (t v : Sexp) :
    Sexp → Except ℕ (Sexp × Sexp)
  | .cons (.cons a b) dd =>
      if a = v then do
        let td ← cdrE t
        let rhs ← carE td
        let x ← ev rhs (.num oneE)
        .ok (.cons (.cons a x) dd, x)
      else do
        let (dd2, r) ← setqWalkPr ev t v dd
        .ok (.cons (.cons a b) dd2, r)
  | .cons _ _ => .error 1
  | _ => .error 3

/-- Embedding of lisp-pr.c `f_setq`: `L v = car(t);` then the walk,
with the right-hand side evaluated in the environment `1`. -/
def fSetqPr (ev : Sexp → Sexp → Except ℕ Sexp) (t e : Sexp) :
    Except ℕ (Sexp × Sexp) := do
  let v ← carE t
  setqWalkPr ev t v e

/-- Bit pattern of the IEEE double 2.0. -/
def twoE : ℕ := 0x4000000000000000

/-!
Model of the atom/string heap (claim C10).  The heap holds entries
`[backref: R bytes][bytes...][0]` tightly packed from address `A+H`;
between collections the back-reference field is unused, so an entry is
characterized by its NUL-free content bytes.  `R = sizeof(I) = 4`.
-/

/-- Width of the cell-reference field of a heap entry (`R = sizeof(I)`). -/
def RW : ℕ := 4

/-- Byte size of a heap entry holding content `s`: `strlen + R + 1`. -/
def entrySize (s : List ℕ) : ℕ := RW + s.length + 1

/-- Total byte size of a list of heap entries. -/
def sizeSum (hs : List (List ℕ)) : ℕ := (hs.map entrySize).sum

/-- Heap state used for the allocation claims: the entries in order,
the stack pointer `sp`, and the heap base offset `H` (`8*P`). -/
structure HeapSt where
  hs : List (List ℕ)
  sp : ℕ
  hbase : ℕ
  deriving DecidableEq, Repr

/-- The heap pointer `hp`: end of the packed entries. -/
def hpOf (st : HeapSt) : ℕ := st.hbase + sizeSum st.hs

/-- `copy(s)` = `strcpy(A+alloc(strlen(s)), s) - A` (lisp.hpp lines
300-317): reserve `strlen+R+1` bytes and append the entry, returning
the content offset `hp+R`.  `alloc` runs the GC when
`hp+n > (sp-1) << 3`; that path is out of scope here and is modelled
as `none`. -/
def copyF (st : HeapSt) (s : List ℕ) : Option (ℕ × HeapSt) :=
  if hpOf st + entrySize s > (st.sp - 1) * 8 then none
  else some (hpOf st + RW, { st with hs := st.hs ++ [s] })

/-- The interning scan of `atom` (lisp.hpp lines 320-327): starting at
content offset `H+R`, walk every heap entry — atoms and strings alike —
comparing bytes; return the first matching content offset. -/
def atomScan (s : List ℕ) : List (List ℕ) → ℕ → Option ℕ
  | [], _ => none
  | c :: rest, i => if c = s then some i else atomScan s rest (i + c.length + RW + 1)

/-- `atom(s)`: scan the heap for a matching entry; on a miss, copy `s`
to the heap; return `box(ATOM, i)`. -/
def atomF (st : HeapSt) (s : List ℕ) : Option (ℕ × HeapSt) :=
  match atomScan s st.hs (st.hbase + RW) with
  | some i => some (boxE tATOM i, st)
  | none => (copyF st s).map (fun p => (boxE tATOM p.1, p.2))

/-- `string(s)` = `box(STRG, copy(s))`: strings are not interned. -/
def stringF (st : HeapSt) (s : List ℕ) : Option (ℕ × HeapSt) :=
  (copyF st s).map (fun p => (boxE tSTRG p.1, p.2))

/-!
Model of the cons-pair pool (claims C5, C1, C6).  The pool holds `n`
pairs, i.e. `P = 2n` cells; `cells : ℕ → ℕ` gives each cell's 64-bit
encoding and `used : Finset ℕ` is the mark bit-vector, one bit per
pair.
-/

/-- Pointwise update of a cell array. -/
def updC (c : ℕ → ℕ) (i v : ℕ) : ℕ → ℕ := fun j => if j = i then v else c j

/-- The descending sweep loop (lisp.hpp lines 248-258): for each pair
`i` from `n-1` down to `0`, if the pair is not marked used, store
`box(NIL, fp)` in its car cell and point `fp` at it, counting two freed
cells.  Arguments: remaining index bound, cells, `fp`, freed count. -/
def sweepGo (used : Finset ℕ) : ℕ → (ℕ → ℕ) → ℕ → ℕ → ((ℕ → ℕ) × ℕ × ℕ)
  | 0, c, fp, j => (c, fp, j)
  | i + 1, c, fp, j =>
      if i ∈ used then sweepGo used i c fp j
      else sweepGo used i (updC c (2 * i) (boxE tNIL fp)) (2 * i) (j + 2)

/-- `sweep()` over a pool of `n` pairs: returns (cells, fp, freed). -/
def sweepF (c : ℕ → ℕ) (used : Finset ℕ) (n : ℕ) : (ℕ → ℕ) × ℕ × ℕ :=
  sweepGo used n c 0 0

/-- The allocation part of `cons(x, y)` (lisp.hpp lines 335-347):
`i = fp; fp = ord(cell[i]); cell[i] = x; cell[i+1] = y;
p = box(CONS, i);` — returns (cells, new fp, p, gc-branch-taken), where
the last component records whether the `if (!fp)` protect-and-GC branch
runs (it does not change `p`). -/
def consAlloc (c : ℕ → ℕ) (fp x y : ℕ) : (ℕ → ℕ) × ℕ × ℕ × Bool :=
  let i := fp
  let fp2 := ordOf (c i)
  let c2 := updC (updC c i x) (i + 1) y
  (c2, fp2, boxE tCONS i, fp2 = 0)

/-!
Reader and printer (claim C2).  The input is a byte list whose head is
the lookahead character `see`; `get()` returns the head and advances.
At end of input the C reader sees `'\n'` forever (EOF closes the file
and pretends a newline), so `peekB [] = 10`.  `char` is signed on the
reference platform, so bytes ≥ 128 are negative and `seeing(' ')`
(`see > 0 && see <= ' '`) holds exactly for bytes 1..32.

All loops are modelled with explicit fuel; exhausted fuel yields the
marker error 0, meaning the reader would block for more input — the
round-trip theorems always supply sufficient fuel.  The conversion of
numbers (`sscanf("%lg")` in, `printf("%.17lg")` out) lives in the C
library, outside this repository's sources, and is abstracted by a
codec pair `numParse`/`numPrint`.
-/

/-- Lookahead: the head byte, or `'\n'` at end of input. -/
def peekB : List ℕ → ℕ
  | [] => 10
  | b :: _ => b

/-- Advance past the lookahead. -/
def nextB : List ℕ → List ℕ
  | [] => []
  | _ :: r => r

/-- `seeing(' ')`: whitespace under signed-char comparison. -/
def isWhiteB (b : ℕ) : Bool := 1 ≤ b ∧ b ≤ 32

/-- Consume a `;`-comment: `while (!seeing('\n')) get();`. -/
def dropToNl : List ℕ → List ℕ
  | [] => []
  | b :: r => if b = 10 then b :: r else dropToNl r

/-- The whitespace/comment skip loop at the head of `scan`. -/
def skipWs : ℕ → List ℕ → Option (List ℕ)
  | 0, _ => none
  | f + 1, s =>
      if isWhiteB (peekB s) then skipWs f (nextB s)
      else if peekB s = 59 then skipWs f (dropToNl (nextB s))
      else some s

/-- Escape decoding: `strchr("abtnvfr", see)` maps a/b/t/n/v/f/r to
codes 7..13 (`esc - abtnvfr + 7`); the NUL byte hits the terminator
(code 14); any other byte stands for itself. -/
def escByte (c : ℕ) : ℕ :=
  if c = 97 then 7 else if c = 98 then 8 else if c = 116 then 9
  else if c = 110 then 10 else if c = 118 then 11 else if c = 102 then 12
  else if c = 114 then 13 else if c = 0 then 14 else c

/-- The inner escape loop of the string tokenizer:
`while (seeing('\\') && i < sizeof(buf)-1) { get(); buf[i++] = esc; get(); }`. -/
def escLoop : ℕ → ℕ → List ℕ → List ℕ → ℕ × List ℕ × List ℕ
  | 0, i, acc, s => (i, acc, s)
  | f + 1, i, acc, s =>
      if peekB s = 92 ∧ i < 255 then
        let s1 := nextB s
        escLoop f (i + 1) (acc ++ [escByte (peekB s1)]) (nextB s1)
      else (i, acc, s)

/-- The string-token do-while loop of `scan` (lisp.hpp lines 489-504):
copy the current character (the first iteration copies the opening
quote into `buf[0]`), run the escape loop, and continue while the
buffer has room and the lookahead is neither `"` nor a newline; then
consume the closing quote or fail with the syntax error 8. -/
def strLoop : ℕ → ℕ → List ℕ → List ℕ → Except ℕ (List ℕ × List ℕ)
  | 0, _, _, _ => .error 0
  | f + 1, i, acc, s =>
      let acc1 := acc ++ [peekB s]
      let s1 := nextB s
      let r := escLoop f (i + 1) acc1 s1
      if r.1 < 255 ∧ peekB r.2.2 ≠ 34 ∧ peekB r.2.2 ≠ 10 then
        strLoop f r.1 r.2.1 r.2.2
      else
        if peekB r.2.2 = 34 then .ok (r.2.1, nextB r.2.2) else .error 8

/-- The symbol/number-token do-while loop of `scan` (lines 507-510):
copy characters while the buffer has room and the lookahead is not
`(`, `)` or whitespace. -/
def symLoop : ℕ → ℕ → List ℕ → List ℕ → List ℕ × List ℕ
  | 0, _, acc, s => (acc, s)
  | f + 1, i, acc, s =>
      let acc1 := acc ++ [peekB s]
      let s1 := nextB s
      if i + 1 < 255 ∧ peekB s1 ≠ 40 ∧ peekB s1 ≠ 41 ∧ ¬isWhiteB (peekB s1) then
        symLoop f (i + 1) acc1 s1
      else (acc1, s1)

/-- `scan()` (lisp.hpp lines 483-513): skip whitespace and comments,
then tokenize a string, a single-character token `(` `)` `'`, or a
symbol/number; returns the token bytes (`buf`) and the rest. -/
def scanT (f : ℕ) (s : List ℕ) : Except ℕ (List ℕ × List ℕ) :=
  match skipWs f s with
  | none => .error 0
  | some s1 =>
      if peekB s1 = 34 then strLoop f 0 [] s1
      else if peekB s1 = 40 ∨ peekB s1 = 41 ∨ peekB s1 = 39 then
        .ok ([peekB s1], nextB s1)
      else .ok (symLoop f 0 [] s1)

/-- Name of the quote primitive, as bytes. -/
def quoteBytes : List ℕ := [113, 117, 111, 116, 101]

mutual

/-- `parse()` (lisp.hpp lines 533-548) on a scanned token `buf`:
`(` opens a list, `'x` becomes `(quote x)`, `"...` becomes a fresh
string from `buf+1`, a token that `sscanf("%lg%n")` consumes entirely
is a number, a stray `)` is the syntax error 8, and anything else is an
atom. -/
def parseT (numParse : List ℕ → Option ℕ) : ℕ → List ℕ → List ℕ →
    Except ℕ (Sexp × List ℕ)
  | 0, _, _ => .error 0
  | f + 1, buf, s =>
      if buf.head? = some 40 then listT numParse f s
      else if buf.head? = some 39 then do
        let r ← readT numParse f s
        .ok (.cons (.atom quoteBytes) (.cons r.1 .snil), r.2)
      else if buf.head? = some 34 then .ok (.sstr buf.tail, s)
      else
        match numParse buf with
        | some bits => .ok (.num bits, s)
        | none =>
            if buf.head? = some 41 then .error 8 else .ok (.atom buf, s)

/-- `list()` (lisp.hpp lines 516-530): scan; `)` closes the list; a
lone `.` token reads the explicit tail which must be followed by `)`;
otherwise parse an element and continue. -/
def listT (numParse : List ℕ → Option ℕ) : ℕ → List ℕ →
    Except ℕ (Sexp × List ℕ)
  | 0, _ => .error 0
  | f + 1, s => do
      let (buf, s1) ← scanT f s
      if buf.head? = some 41 then .ok (.snil, s1)
      else if buf = [46] then do
        let (x, s2) ← readT numParse f s1
        let (buf2, s3) ← scanT f s2
        if buf2.head? = some 41 then .ok (x, s3) else .error 8
      else do
        let (x, s2) ← parseT numParse f buf s1
        let (rest, s3) ← listT numParse f s2
        .ok (.cons x rest, s3)

/-- `read()` = `scan(); parse();`. -/
def readT (numParse : List ℕ → Option ℕ) : ℕ → List ℕ →
    Except ℕ (Sexp × List ℕ)
  | 0, _ => .error 0
  | f + 1, s => do
      let (buf, s1) ← scanT f s
      parseT numParse f buf s1

end

mutual

/-- `print` (lisp.hpp lines 1006-1023) as a byte list.  `numPrint`
abstracts `printf("%.17lg")` and `primName` the primitive-name table;
the closure and macro markers `{%u}`/`[%u]` carry a pool ordinal that
the tree model does not track, so only their brackets are rendered
(they are excluded from every round-trip statement). -/
def printE (numPrint : ℕ → List ℕ) (primName : ℕ → List ℕ) : Sexp → List ℕ
  | .snil => [40, 41]
  | .num bits => numPrint bits
  | .prim i => [60] ++ primName i ++ [62]
  | .atom s => s
  | .sstr s => [34] ++ s ++ [34]
  | .cons a d => [40] ++ printE numPrint primName a ++
      printTailE numPrint primName d ++ [41]
  | .clos _ _ => [123, 125]
  | .macr _ _ => [91, 93]

/-- The loop of `printlist` (lines 1028-1043) after the first element:
nil ends the list, a further pair prints a space and continues, and any
other tail prints `" . "` and the tail. -/
def printTailE (numPrint : ℕ → List ℕ) (primName : ℕ → List ℕ) : Sexp → List ℕ
  | .snil => []
  | .cons a d => [32] ++ printE numPrint primName a ++
      printTailE numPrint primName d
  | x => [32, 46, 32] ++ printE numPrint primName x

end

/-- Bytes that may appear anywhere in an atom token: not whitespace
(which under signed chars is bytes 1..32), not a paren, not NUL. -/
def goodAtomChar (b : ℕ) : Bool :=
  ¬isWhiteB b ∧ b ≠ 40 ∧ b ≠ 41 ∧ b ≠ 0

/-- Bytes that round-trip inside a printed string: the printer emits
string bytes raw, so a quote, a backslash or a newline breaks reading. -/
def goodStrChar (b : ℕ) : Bool := b ≠ 34 ∧ b ≠ 92 ∧ b ≠ 10 ∧ b ≠ 0

/-- Delimiters that end a symbol token without being consumed. -/
def isDelimB (b : ℕ) : Bool := isWhiteB b ∨ b = 40 ∨ b = 41

/-- Round-trippable values, relative to the number codec: Nil; numbers;
atoms whose name is a printable single token (nonempty, delimiter-free
bytes, not starting like a string/quote/comment token, not the bare
dot, at most 255 bytes — the tokenizer buffer — and not parseable as a
number); strings of round-trippable bytes of at most 254 bytes; and
conses of such values (with any such value as a dotted tail). -/
inductive GoodS (numParse : List ℕ → Option ℕ) : Sexp → Prop where
  | gnil : GoodS numParse .snil
  | gnum (bits : ℕ) : GoodS numParse (.num bits)
  | gatom (s : List ℕ) (hne : s ≠ []) (hc : ∀ b ∈ s, goodAtomChar b = true)
      (h34 : s.head? ≠ some 34) (h39 : s.head? ≠ some 39)
      (h59 : s.head? ≠ some 59) (hdot : s ≠ [46]) (hlen : s.length ≤ 255)
      (hnp : numParse s = none) : GoodS numParse (.atom s)
  | gstr (s : List ℕ) (hc : ∀ b ∈ s, goodStrChar b = true)
      (hlen : s.length ≤ 254) : GoodS numParse (.sstr s)
  | gcons (a d : Sexp) (ha : GoodS numParse a) (hd : GoodS numParse d) :
      GoodS numParse (.cons a d)

mutual

/-- Fuel sufficient to read back the printed form of a value. -/
def fuelS : Sexp → ℕ
  | .cons a d => fuelS a + fuelTailS d + 300
  | _ => 300

/-- Fuel sufficient to read back a printed list tail (a dotted tail
that reaches the catch-all is a leaf, so 900 covers its dot token,
its own token and the closing paren). -/
def fuelTailS : Sexp → ℕ
  | .snil => 300
  | .cons a d => fuelS a + fuelTailS d + 300
  | _ => 900

end

/-- An optional single leading space, as emitted between list elements. -/
def spacePre (sp : Bool) : List ℕ := if sp then [32] else []

/-!
Mark phase (claim C1): the recursive `mark` of lisp.hpp (lines
236-245) against the pointer-reversal `mark` of lisp-pr.c (lines
165-193).  Cells are a function from cell index to the stored 64-bit
encoding; the `used` bit vector is the finite set of marked pair
indices (bit `i/2` for cell index `i`).
-/

/-- `mark(i)` of lisp.hpp (lines 236-245), with explicit fuel: while
pair `i/2` is unmarked, mark it, recursively mark the car target when
the car cell refers to a pair, and continue with the cdr target when
the cdr cell refers to a pair. -/
def markRec (c : ℕ → ℕ) : ℕ → ℕ → Finset ℕ → Finset ℕ
  | 0, _, u => u
  | f + 1, i, u =>
      if i / 2 ∈ u then u
      else
        let u1 := insert (i / 2) u
        let u2 := if isPairRef (c i) then markRec c f (ordOf (c i)) u1
          else u1
        if isPairRef (c (i + 1)) then markRec c f (ordOf (c (i + 1))) u2
        else u2

/-- Control point of the pointer-reversal machine: inside the descend
loop, inside the ascend loop, or finished. -/
inductive MPhase where
  | down : MPhase
  | up : MPhase
  | done : MPhase
deriving DecidableEq, Repr

/-- State of the pointer-reversal `mark(i)`: the cell array, the
current cell index `i`, the parent link `j`, and the mark bits. -/
structure MSt where
  c : ℕ → ℕ
  i : ℕ
  j : ℕ
  u : Finset ℕ

/-- `(T(cell[k]) & ~(CONS^MACR)) == CONS && !(used bit for ord/2)`:
cell `k` refers to a pair whose mark bit is still clear. -/
def freshRef (c : ℕ → ℕ) (u : Finset ℕ) (k : ℕ) : Bool :=
  isPairRef (c k) && !(decide (ordOf (c k) / 2 ∈ u))

/-- One iteration of the pointer-reversal `mark` (lisp-pr.c lines
169-192).  Descend phase (`i` even): mark pair `i/2`; reverse into a
fresh car target, else reverse into a fresh cdr target (incrementing
`i`), else switch to the ascend phase at cell `i+1`.  Ascend phase:
while `j < NS`, pop one reversed link (`k=i; i=j; j=ord(cell[i]);
cell[i]=box(T(cell[i]), k&~1)`), descending again when the restored
cell index is even (a car); at `j = NS` the outer loop continues only
when `i` is even, else the machine is done. -/
def prStep (NS : ℕ) : MPhase × MSt → MPhase × MSt
  | (.down, s) =>
      let u1 := insert (s.i / 2) s.u
      if freshRef s.c u1 s.i then
        (.down, ⟨updC s.c s.i (boxE (tagOf (s.c s.i)) s.j),
          ordOf (s.c s.i), s.i, u1⟩)
      else if freshRef s.c u1 (s.i + 1) then
        (.down, ⟨updC s.c (s.i + 1) (boxE (tagOf (s.c (s.i + 1))) s.j),
          ordOf (s.c (s.i + 1)), s.i + 1, u1⟩)
      else (.up, ⟨s.c, s.i + 1, s.j, u1⟩)
  | (.up, s) =>
      if s.j < NS then
        let i2 := s.j
        let c2 := updC s.c i2 (boxE (tagOf (s.c i2)) (s.i - s.i % 2))
        if i2 % 2 = 0 then (.down, ⟨c2, i2, ordOf (s.c i2), s.u⟩)
        else (.up, ⟨c2, i2, ordOf (s.c i2), s.u⟩)
      else if s.i % 2 = 0 then (.down, s)
      else (.done, s)
  | (.done, s) => (.done, s)

/-- Run `fuel` iterations of the machine. -/
def prRunIter (NS fuel : ℕ) (st : MPhase × MSt) : MPhase × MSt :=
  (prStep NS)^[fuel] st

/-- `mark(i)` of lisp-pr.c: return unchanged if pair `i/2` is already
marked, else run the machine from the descend phase with the sentinel
parent link `NS`; `some (cells, marks)` when it finishes in `fuel`
iterations. -/
def prMark (NS fuel : ℕ) (c : ℕ → ℕ) (i : ℕ) (u : Finset ℕ) :
    Option ((ℕ → ℕ) × Finset ℕ) :=
  if i / 2 ∈ u then some (c, u)
  else
    match prRunIter NS fuel (.down, ⟨c, i, NS, u⟩) with
    | (.done, s) => some (s.c, s.u)
    | _ => none

/-- Mark every root in turn with the recursive mark (fuel `n` per
root is enough for a pool of `n` pairs). -/
def markAll (c : ℕ → ℕ) (n : ℕ) (roots : List ℕ) (u : Finset ℕ) :
    Finset ℕ :=
  roots.foldl (fun u r => markRec c n r u) u

/-- Mark every root in turn with the pointer-reversal mark, threading
the (temporarily mutated) cell array. -/
def prMarkAll (NS fuel : ℕ) (roots : List ℕ) (c : ℕ → ℕ)
    (u : Finset ℕ) : Option ((ℕ → ℕ) × Finset ℕ) :=
  match roots with
  | [] => some (c, u)
  | r :: rs =>
      match prMark NS fuel c r u with
      | none => none
      | some (c1, u1) => prMarkAll NS fuel rs c1 u1

/-- Well-formed pool cell: a pair reference stores an even ordinal
inside the pool and is canonically boxed (no stray bits between
ordinal and tag), so reversing and restoring it is lossless. -/
def cellOK (n e : ℕ) : Prop :=
  isPairRef e = true →
    ordOf e % 2 = 0 ∧ ordOf e < 2 * n ∧ e = boxE (tagOf e) (ordOf e)

/-- Pool well-formedness relative to mark bits `u`: every cell of an
unmarked pair is well formed (cells of marked pairs may hold reversed
links mid-run). -/
def WFc (c : ℕ → ℕ) (n : ℕ) (u : Finset ℕ) : Prop :=
  ∀ k, k < 2 * n → k / 2 ∉ u → cellOK n (c k)

/-- Number of pairs of an `n`-pair pool still unmarked. -/
def remCnt (n : ℕ) (u : Finset ℕ) : ℕ := (Finset.range n \ u).card

/-- A four-pair pool for exercising the mark phase: the root pair 0
reaches pair 1 (whose cdr cycles back to pair 0) and pair 2 (whose car
shares pair 1); pair 3 is garbage. -/
def c1Cells : ℕ → ℕ := fun k =>
  if k = 0 then boxE tCONS 2
  else if k = 1 then boxE tCONS 4
  else if k = 2 then boxE tNIL 0
  else if k = 3 then boxE tCONS 0
  else if k = 4 then boxE tCONS 2
  else if k = 5 then boxE tNIL 0
  else if k = 6 then 42
  else 7

/-!
Garbage collector (claim C6): `gc()` (lisp.hpp lines 176-189) clears
the marks, marks from `env` and the stack, then runs `sweep()` and
`compact()` (lines 268-292).  The heap is the list of entry contents
in order (offsets are derived from the sizes); during `compact` each
entry is paired with its mutable cell-reference field.
-/

/-- Offset-addressed read of the reference field of the entry starting
at byte offset `o` (`*(I*)(A+o)`), scanning entries from base offset
`b`; `none` when `o` is not an entry start. -/
def refAt : ℕ → List (ℕ × List ℕ) → ℕ → Option ℕ
  | _, [], _ => none
  | b, e :: es, o =>
      if o = b then some e.1 else refAt (b + entrySize e.2) es o

/-- Offset-addressed write of the reference field of the entry
starting at offset `o`. -/
def setRefAt : ℕ → List (ℕ × List ℕ) → ℕ → ℕ → List (ℕ × List ℕ)
  | _, [], _, _ => []
  | b, e :: es, o, i =>
      if o = b then (i, e.2) :: es
      else e :: setRefAt (b + entrySize e.2) es o i

/-- `link(i)` (lisp.hpp lines 261-266): read the reference field of
the entry addressed by cell `i` (`ord(cell[i])-R`), point it at `i`,
and store the old value in cell `i`'s ordinal. -/
def linkC (b : ℕ) (hs : List (ℕ × List ℕ)) (c : ℕ → ℕ) (i : ℕ) :
    Option (List (ℕ × List ℕ) × (ℕ → ℕ)) := do
  let k ← refAt b hs (ordOf (c i) - RW)
  some (setRefAt b hs (ordOf (c i) - RW) i,
    updC c i (boxE (tagOf (c i)) k))

/-- Run `link` on each listed cell in order. -/
def linkPass (b : ℕ) : List ℕ → List (ℕ × List ℕ) → (ℕ → ℕ) →
    Option (List (ℕ × List ℕ) × (ℕ → ℕ))
  | [], hs, c => some (hs, c)
  | i :: is, hs, c => do
      let r ← linkC b hs c i
      linkPass b is r.1 r.2

/-- Pool cells of used pairs that hold atom/string references
(`used[i/64] & ... && (T(cell[i]) & ~(ATOM^STRG)) == ATOM`,
lisp.hpp lines 272-274). -/
def poolHeapCells (used : Finset ℕ) (c : ℕ → ℕ) (p : ℕ) : List ℕ :=
  (List.range p).filter (fun i => decide (i / 2 ∈ used) && isHeapRef (c i))

/-- Stack cells that hold atom/string references (lines 275-277). -/
def stackHeapCells (c : ℕ → ℕ) (sp nn : ℕ) : List ℕ :=
  ((List.range (nn - sp)).map (fun t => sp + t)).filter
    (fun i => isHeapRef (c i))

/-- The linked-list walk of `compact` (lines 281-285): rewrite every
cell on the chain starting at `k` to the relocated ordinal `off`,
following the stored links, until an index at or above the sentinel
`nn` ends the list. -/
def walkCh (nn : ℕ) : ℕ → (ℕ → ℕ) → ℕ → ℕ → Option (ℕ → ℕ)
  | 0, _, _, _ => none
  | f + 1, c, k, off =>
      if k < nn then
        walkCh nn f (updC c k (boxE (tagOf (c k)) off)) (ordOf (c k)) off
      else some c

/-- The relocation loop of `compact` (lines 278-291): keep an entry
when its reference list is non-empty, rewriting the listed cells to
the packed location `hp+R` and advancing `hp` past the entry; drop the
entry otherwise. -/
def relocGo (nn fuel : ℕ) : List (ℕ × List ℕ) → (ℕ → ℕ) → ℕ →
    Option (List (List ℕ) × (ℕ → ℕ) × ℕ)
  | [], c, hp => some ([], c, hp)
  | e :: es, c, hp =>
      if e.1 < nn then do
        let c1 ← walkCh nn fuel c e.1 (hp + RW)
        let r ← relocGo nn fuel es c1 (hp + entrySize e.2)
        some (e.2 :: r.1, r.2.1, r.2.2)
      else relocGo nn fuel es c hp

/-- `compact()` (lisp.hpp lines 268-292): reset every entry's
reference field to the sentinel `N`, thread each used atom/string
cell of the pool and then each atom/string cell of the stack into its
entry's list, and relocate the referenced entries downwards. -/
def compactF (b nn sp n fuel : ℕ) (used : Finset ℕ)
    (hs : List (List ℕ)) (c : ℕ → ℕ) :
    Option (List (List ℕ) × (ℕ → ℕ) × ℕ) := do
  let r1 ← linkPass b (poolHeapCells used c (2 * n))
    (hs.map (fun s => (nn, s))) c
  let r2 ← linkPass b (stackHeapCells r1.2 sp nn) r1.1 r1.2
  relocGo nn fuel r2.1 r2.2 b

/-- The roots marked by `gc()` (lines 180-185): `env` when its tag is
exactly CONS, then every pair reference found on the stack. -/
def gcRoots (env : ℕ) (c : ℕ → ℕ) (sp nn : ℕ) : List ℕ :=
  (if tagOf env = tCONS then [ordOf env] else []) ++
    (((List.range (nn - sp)).map (fun t => sp + t)).filter
      (fun i => isPairRef (c i))).map (fun i => ordOf (c i))

/-- Result of one garbage collection: the cells, the heap entries,
the mark bit-vector, the free pointer, the freed-cell count, and the
heap pointer. -/
structure GOut where
  c : ℕ → ℕ
  hs : List (List ℕ)
  used : Finset ℕ
  fp : ℕ
  freed : ℕ
  hp : ℕ

/-- `gc()` (lisp.hpp lines 176-189): clear the marks, mark from `env`
and the stack, sweep the pool, compact the heap. -/
def gcF (b nn sp n fuel : ℕ) (env : ℕ) (hs : List (List ℕ))
    (c : ℕ → ℕ) : Option GOut := do
  let u := markAll c n (gcRoots env c sp nn) ∅
  let sw := sweepF c u n
  let cp ← compactF b nn sp n fuel u hs sw.1
  some ⟨cp.2.1, cp.1, u, sw.2.1, sw.2.2, cp.2.2⟩

/-- Start offset of entry `t` in a packed heap. -/
def offB (b : ℕ) (hs : List (List ℕ)) (t : ℕ) : ℕ :=
  b + sizeSum (hs.take t)

/-- Entries of a packed heap (starting at offset `b`) that are
referenced by at least one listed cell. -/
def keptAll : ℕ → List (List ℕ) → (ℕ → ℕ) → List ℕ → List (List ℕ)
  | _, [], _, _ => []
  | b, s :: rest, c, S =>
      if S.any (fun k => decide (ordOf (c k) = b + RW)) then
        s :: keptAll (b + entrySize s) rest c S
      else keptAll (b + entrySize s) rest c S

/-- Kept entries among the first `t`. -/
def keptBefore (b : ℕ) (hs : List (List ℕ)) (c : ℕ → ℕ) (S : List ℕ)
    (t : ℕ) : List (List ℕ) :=
  keptAll b (hs.take t) c S

/-- Each entry paired with the (reversed) list of cells referencing
it. -/
def entChains : ℕ → List (ℕ × List ℕ) → (ℕ → ℕ) → List ℕ →
    List ((ℕ × List ℕ) × List ℕ)
  | _, [], _, _ => []
  | b, e :: es, c, S =>
      (e, (S.filter (fun k => decide (ordOf (c k) = b + RW))).reverse) ::
        entChains (b + entrySize e.2) es c S

/-- Following stored ordinals from `head` through the listed cells
reaches `base`. -/
inductive ChainTo (c : ℕ → ℕ) (base : ℕ) : ℕ → List ℕ → Prop where
  | nil : ChainTo c base base []
  | cons (k : ℕ) (ks : List ℕ) (h : ChainTo c base (ordOf (c k)) ks) :
      ChainTo c base k (k :: ks)

/- ==================== end of definitions (part 1) ==================== -/

/- ==================== theorems ==================== -/

lemma kindOf_eq_katom {e : ℕ} : kindOf e = .katom ↔ tagOf e = tATOM := by
  unfold kindOf tNIL tPRIM tATOM tSTRG tCONS tCLOS tMACR
  split_ifs <;> simp_all [tATOM]

lemma kindOf_eq_kstrg {e : ℕ} : kindOf e = .kstrg ↔ tagOf e = tSTRG := by
  unfold kindOf tNIL tPRIM tATOM tSTRG tCONS tCLOS tMACR
  split_ifs <;> simp_all [tSTRG]

lemma kindOf_eq_knum {e : ℕ} :
    kindOf e = .knum ↔
      tagOf e ≠ tNIL ∧ tagOf e ≠ tPRIM ∧ tagOf e ≠ tATOM ∧ tagOf e ≠ tSTRG ∧
      tagOf e ≠ tCONS ∧ tagOf e ≠ tCLOS ∧ tagOf e ≠ tMACR := by
  unfold kindOf tNIL tPRIM tATOM tSTRG tCONS tCLOS tMACR
  split_ifs <;> simp_all

lemma isHeapRef_iff {e : ℕ} :
    isHeapRef e = true ↔ tagOf e = tATOM ∨ tagOf e = tSTRG := by
  unfold isHeapRef tATOM tSTRG
  constructor
  · intro h
    simp only [decide_eq_true_eq] at h
    omega
  · intro h
    simp only [decide_eq_true_eq]
    omega

/-- Claim C3, counterexample to the part "two NaN numbers are not `eq?`":
the quiet NaN 0x7ff8000000000000 is a Number and an IEEE NaN, yet
`(eq? nan nan)` returns #t in lisp.hpp as well as in lisp-pr.c, because
`equ` compares bit patterns and the two patterns are identical. -/
theorem c3_eq_nan_counterexample :
    kindOf qnanE = .knum ∧ isNaNBits qnanE = true ∧
    fEqHpp (fun _ => []) qnanE qnanE = true ∧ fEqPr qnanE qnanE = true := by
  refine ⟨by decide, by decide, by decide, by decide⟩

/-- Claim C3 (amended): in lisp.hpp, `(eq? x y)` returns #t exactly when
the 64-bit encodings are bit-equal, except that two Strings compare by
byte content; consequently bit-identical NaNs and identical zeros are
`eq?` while differing-bit NaNs and +0.0 vs -0.0 are not.  In lisp-pr.c
the string refinement is absent: `eq?` is plain bit equality. -/
theorem c3_eq_amended (strAt : ℕ → List ℕ) (x y : ℕ) :
    (kindOf x = .kstrg → kindOf y = .kstrg →
      (fEqHpp strAt x y = true ↔ strAt (ordOf x) = strAt (ordOf y))) ∧
    (¬(kindOf x = .kstrg ∧ kindOf y = .kstrg) →
      (fEqHpp strAt x y = true ↔ x = y)) ∧
    (fEqPr x y = true ↔ x = y) := by
  rw [kindOf_eq_kstrg, kindOf_eq_kstrg]
  unfold fEqHpp fEqPr
  refine ⟨fun hx hy => ?_, fun h => ?_, by simp⟩
  · rw [if_pos ⟨hx, hy⟩]; simp
  · rw [if_neg h]; simp

/-- Witness for `c3_eq_amended`: two distinct-offset strings with the
same single byte are `eq?` in lisp.hpp. -/
theorem c3_eq_amended_witness :
    fEqHpp (fun _ => [97]) (boxE tSTRG 5) (boxE tSTRG 9) = true :=
  ((c3_eq_amended (fun _ => [97]) (boxE tSTRG 5) (boxE tSTRG 9)).1
    (by decide) (by decide)).mpr rfl

/-- Claim C4, counterexample: by the claim, `(< () 1.0)` must return ()
because neither side is a Number pair nor an Atom/String pair and the
unsigned 64-bit encoding of () (0xffff000000000000) is larger than that
of 1.0 (0x3ff0000000000000); but lisp.hpp's `f_lt` compares the
encodings as SIGNED `int64_t`, so it returns #t. -/
theorem c4_lt_unsigned_counterexample :
    fLtHpp (fun _ => []) nilE oneE = true ∧
    c4ClaimPred (fun _ => []) nilE oneE = false := by
  refine ⟨by decide, by decide⟩

/-- Claim C4 (amended): in lisp.hpp, `(< x y)` compares two Atoms or two
Strings by byte lexicographic order, two non-NaN doubles by IEEE `<`,
and otherwise compares the 64-bit encodings as signed two's-complement
integers (not unsigned).  (In lisp-pr.c, `<` instead subtracts the two
operands as doubles, so any comparison involving a non-number is ().) -/
theorem c4_lt_amended (strAt : ℕ → List ℕ) (x y : ℕ) :
    ((kindOf x = .katom ∧ kindOf y = .katom) ∨
     (kindOf x = .kstrg ∧ kindOf y = .kstrg) →
      (fLtHpp strAt x y = true ↔ strLtB (strAt (ordOf x)) (strAt (ordOf y)) = true)) ∧
    (¬((kindOf x = .katom ∧ kindOf y = .katom) ∨
       (kindOf x = .kstrg ∧ kindOf y = .kstrg)) →
      isNaNBits x = false → isNaNBits y = false →
      (fLtHpp strAt x y = true ↔ ieeeLt x y = true)) ∧
    (¬((kindOf x = .katom ∧ kindOf y = .katom) ∨
       (kindOf x = .kstrg ∧ kindOf y = .kstrg)) →
      (isNaNBits x = true ∨ isNaNBits y = true) →
      (fLtHpp strAt x y = true ↔ sint64 x < sint64 y)) := by
  have hsel : (tagOf x = tagOf y ∧ isHeapRef x = true) ↔
      ((kindOf x = .katom ∧ kindOf y = .katom) ∨
       (kindOf x = .kstrg ∧ kindOf y = .kstrg)) := by
    rw [kindOf_eq_katom, kindOf_eq_katom, kindOf_eq_kstrg, kindOf_eq_kstrg,
      isHeapRef_iff]
    constructor
    · rintro ⟨he, hA | hS⟩
      · exact Or.inl ⟨hA, he ▸ hA⟩
      · exact Or.inr ⟨hS, he ▸ hS⟩
    · rintro (⟨hx, hy⟩ | ⟨hx, hy⟩)
      · exact ⟨hx.trans hy.symm, Or.inl hx⟩
      · exact ⟨hx.trans hy.symm, Or.inr hx⟩
  unfold fLtHpp
  refine ⟨fun h => ?_, fun h hx hy => ?_, fun h hnan => ?_⟩
  · rw [if_pos (hsel.mpr h)]
  · have hc1 : ¬(tagOf x = tagOf y ∧ isHeapRef x = true) := fun hc => h (hsel.mp hc)
    have hc2 : ¬isNaNBits x = true ∧ ¬isNaNBits y = true := by simp [hx, hy]
    rw [if_neg hc1, if_pos hc2]
  · have hc1 : ¬(tagOf x = tagOf y ∧ isHeapRef x = true) := fun hc => h (hsel.mp hc)
    have hc2 : ¬(¬isNaNBits x = true ∧ ¬isNaNBits y = true) := by
      rcases hnan with h1 | h1 <;> simp [h1]
    rw [if_neg hc1, if_neg hc2]
    simp

/-- Witness for `c4_lt_amended`: two atoms compare lexicographically
("ab" < "b"), a non-NaN pair compares by IEEE (1.0 < 2.0 as patterns),
and the nil/1.0 pair falls into the signed-compare branch. -/
theorem c4_lt_amended_witness :
    (fLtHpp (fun o => if o = 5 then [97, 98] else [98]) (boxE tATOM 5) (boxE tATOM 9) = true ↔
      strLtB [97, 98] [98] = true) ∧
    (fLtHpp (fun _ => []) nilE oneE = true ↔ sint64 nilE < sint64 oneE) := by
  constructor
  · simpa using (c4_lt_amended (fun o => if o = 5 then [97, 98] else [98])
      (boxE tATOM 5) (boxE tATOM 9)).1 (Or.inl ⟨by decide, by decide⟩)
  · exact (c4_lt_amended (fun _ => []) nilE oneE).2.2 (by decide) (Or.inl (by decide))

/-- Claim C9, counterexample: in lisp-pr.c, `(type ())` returns 0, not
the -1 required by the claimed table (and `(type 1.0)` returns 1, not 0). -/
theorem c9_type_pr_counterexample :
    kindOf nilE = .knil ∧ fTypePr nilE = 0 ∧ fTypePr nilE ≠ -1 ∧
    kindOf oneE = .knum ∧ fTypePr oneE = 1 ∧ fTypePr oneE ≠ 0 := by
  refine ⟨by decide, by decide, by decide, by decide, by decide, by decide⟩

/-- Claim C9 (amended): lisp.hpp's `f_type` realizes the claimed table
(Nil = -1, Number = 0, Primitive = 1, Atom = 2, String = 3, Cons = 4,
Closure = 6, Macro = 7) on every encoding whose tag is not the unused
0x7ffd; lisp-pr.c's `f_type` instead returns Nil = 0 and Number = 1
(and Primitive = 1), agreeing only on Atom/String/Cons/Closure/Macro. -/
theorem c9_type_amended (x : ℕ) (h : tagOf x ≠ 0x7ffd) :
    fTypeHpp x = specTypeCode (kindOf x) ∧ fTypePr x = prTypeCode (kindOf x) := by
  unfold fTypeHpp fTypePr specTypeCode prTypeCode kindOf
  unfold tNIL tPRIM tATOM tSTRG tCONS tCLOS tMACR
  refine ⟨?_, ?_⟩
  · split_ifs <;> (simp_all; try omega)
  · split_ifs <;> (simp_all; try omega)

/-- Witness for `c9_type_amended` at the Nil value. -/
theorem c9_type_amended_witness :
    fTypeHpp nilE = specTypeCode (kindOf nilE) ∧
    fTypePr nilE = prTypeCode (kindOf nilE) :=
  c9_type_amended nilE (by decide)

lemma okBind {e a b : Type} (x : a) (f : a → Except e b) :
    (Except.ok x : Except e a) >>= f = f x := rfl

lemma errBind {e a b : Type} (n : e) (f : a → Except e b) :
    (Except.error n : Except e a) >>= f = (Except.error n : Except e b) := rfl

lemma bindLoop1_shortfall (ev : Sexp → Sexp → Except ℕ Sexp) (e : Sexp) :
    ∀ (args names : List Sexp) (d : Sexp),
      args.length < names.length →
      (∀ a ∈ args, ∃ r, ev a e = .ok r) →
      ∃ m ms d2, bindLoop1 ev e (listS names) (listS args) d =
        .ok (listS (m :: ms), .snil, d2) := by
  intro args
  induction args with
  | nil =>
      intro names d hlen _
      cases names with
      | nil => simp at hlen
      | cons n ns => exact ⟨n, ns, d, by simp [listS, bindLoop1]⟩
  | cons a as ih =>
      intro names d hlen hev
      cases names with
      | nil => simp at hlen
      | cons n ns =>
          obtain ⟨r, hr⟩ := hev a (by simp)
          have hlen2 : as.length < ns.length := by simpa using hlen
          obtain ⟨m, ms, d2, h2⟩ :=
            ih ns (pairS n r d) hlen2 (fun b hb => hev b (by simp [hb]))
          refine ⟨m, ms, d2, ?_⟩
          simpa [listS, bindLoop1, hr] using h2

/-- Claim C7, counterexample: binding the parameter list `(a b)` of a
closure to the single-argument list `(1.0)` fails in lisp.hpp with
error code 4 (`cannot-apply`), not the claimed code 5. -/
theorem c7_badargs_code_counterexample :
    closBindHpp (fun s _ => .ok s)
      (listS [.atom [97], .atom [98]]) (listS [.num oneE]) .snil .snil = .error 4 ∧
    closBindHpp (fun s _ => .ok s)
      (listS [.atom [97], .atom [98]]) (listS [.num oneE]) .snil .snil ≠ .error 5 := by
  have h4 : closBindHpp (fun s _ => .ok s)
      (listS [.atom [97], .atom [98]]) (listS [.num oneE]) .snil .snil = .error 4 := rfl
  refine ⟨h4, ?_⟩
  rw [h4]
  simp

/-- Claim C7 (amended): when required parameters remain after the
argument list is exhausted, lisp.hpp's `step` raises error 4
(`cannot-apply`, as its own error table says of "too few arguments to a
Closure"), while lisp-pr.c's `step` raises error 5 (`bad-arguments`). -/
theorem c7_badargs_amended (ev : Sexp → Sexp → Except ℕ Sexp)
    (names args : List Sexp) (e d : Sexp)
    (hlen : args.length < names.length)
    (hev : ∀ a ∈ args, ∃ r, ev a e = .ok r)
    (hnil : ev .snil e = .ok .snil) :
    closBindHpp ev (listS names) (listS args) e d = .error 4 ∧
    closBindPr ev (listS names) (listS args) e d = .error 5 := by
  obtain ⟨m, ms, d2, h2⟩ := bindLoop1_shortfall ev e args names d hlen hev
  constructor
  · simp only [closBindHpp]
    rw [h2]
    simp [listS, bindLoop2, hnil, okBind]
  · simp only [closBindPr]
    rw [h2]
    simp [listS, bindLoop2, hnil, okBind]

/-- Witness for `c7_badargs_amended`: three parameters, one argument. -/
theorem c7_badargs_amended_witness :
    closBindHpp evalVarStep (listS [.atom [97], .atom [98], .atom [99]])
      (listS [.num twoE]) .snil .snil = .error 4 ∧
    closBindPr evalVarStep (listS [.atom [97], .atom [98], .atom [99]])
      (listS [.num twoE]) .snil .snil = .error 5 :=
  c7_badargs_amended evalVarStep [.atom [97], .atom [98], .atom [99]]
    [.num twoE] .snil .snil (by decide)
    (by intro a ha; simp at ha; subst ha; exact ⟨.num twoE, rfl⟩) rfl

/-- Claim C8: lisp-pr.c's `f_setq` evaluated at the failing input
`(setq a b)` in the environment `((a . 1.0) (b . 2.0))`: it raises
error 3 (unbound symbol), because it evaluates the right-hand side `b`
with the number `1` passed as the environment; lisp.hpp's `f_setq`
behaves as the claim states, rebinding `a` to 2.0 and returning 2.0. -/
theorem c8_setq_pr_failing_input :
    fSetqPr evalVarStep (listS [.atom [97], .atom [98]])
      (listS [.cons (.atom [97]) (.num oneE), .cons (.atom [98]) (.num twoE)]) =
      .error 3 ∧
    fSetqHpp evalVarStep (listS [.atom [97], .atom [98]])
      (listS [.cons (.atom [97]) (.num oneE), .cons (.atom [98]) (.num twoE)]) =
      .ok (listS [.cons (.atom [97]) (.num twoE), .cons (.atom [98]) (.num twoE)],
           .num twoE) :=
  ⟨rfl, rfl⟩

lemma atomScan_append_self (b : List ℕ) :
    ∀ (hs : List (List ℕ)) (i : ℕ), b ∉ hs →
      atomScan b (hs ++ [b]) i = some (i + sizeSum hs) := by
  intro hs
  induction hs with
  | nil => intro i _; simp [atomScan, sizeSum]
  | cons c rest ih =>
      intro i hb
      have hcb : ¬(c = b) := fun h => hb (by simp [h])
      have hbrest : b ∉ rest := fun h => hb (by simp [h])
      rw [List.cons_append, atomScan, if_neg hcb, ih _ hbrest]
      have harr : i + c.length + RW + 1 + sizeSum rest = i + sizeSum (c :: rest) := by
        simp [sizeSum, entrySize, RW]
        omega
      rw [harr]

/-- Claim C10: if no heap entry holds the bytes `b`, then `string(b)`
appends an entry at content offset `hp+R`, and a subsequent `atom(b)`
returns an Atom whose heap offset equals that String entry's offset,
leaving the heap unchanged — the interning scan walks every entry,
including entries created for non-interned Strings, so the Atom shares
the String's storage. -/
theorem c10_atom_string_sharing (hs : List (List ℕ)) (sp hb : ℕ) (b : List ℕ)
    (hnotin : b ∉ hs)
    (hspace : hpOf ⟨hs, sp, hb⟩ + entrySize b ≤ (sp - 1) * 8) :
    stringF ⟨hs, sp, hb⟩ b =
      some (boxE tSTRG (hpOf ⟨hs, sp, hb⟩ + RW), ⟨hs ++ [b], sp, hb⟩) ∧
    atomF ⟨hs ++ [b], sp, hb⟩ b =
      some (boxE tATOM (hpOf ⟨hs, sp, hb⟩ + RW), ⟨hs ++ [b], sp, hb⟩) := by
  have hnogc : ¬(hpOf ⟨hs, sp, hb⟩ + entrySize b > (sp - 1) * 8) := by omega
  constructor
  · simp [stringF, copyF, hnogc]
  · have hsc := atomScan_append_self b hs (hb + RW) hnotin
    have harith : hb + RW + sizeSum hs = hpOf ⟨hs, sp, hb⟩ + RW := by
      simp [hpOf]
      omega
    rw [atomF]
    simp only [hsc, harith]

/-- Witness for `c10_atom_string_sharing` on an empty heap. -/
theorem c10_atom_string_sharing_witness :
    stringF ⟨[], 100, 16⟩ [97] =
      some (boxE tSTRG (hpOf ⟨[], 100, 16⟩ + RW), ⟨[[97]], 100, 16⟩) ∧
    atomF ⟨[[97]], 100, 16⟩ [97] =
      some (boxE tATOM (hpOf ⟨[], 100, 16⟩ + RW), ⟨[[97]], 100, 16⟩) :=
  c10_atom_string_sharing [] 100 16 [97] (by decide) (by decide)

/-- Claim C5, counterexample: sweeping a pool of 4 pairs with nothing
marked (the constructor state) leaves `fp = 0` while the free list is
the full nonempty chain 0 → 2 → 4 → 6, and the next `cons` returns
`box(CONS, 0)` — pair index 0 handed out as a live pair (exactly what
happens for the first `pair(tru, tru, nil)` in the constructor) — with
the `!fp` GC branch not even taken. -/
theorem c5_sentinel_counterexample :
    (sweepF (fun _ => 0) ∅ 4).2.1 = 0 ∧
    (sweepF (fun _ => 0) ∅ 4).2.2 = 8 ∧
    (sweepF (fun _ => 0) ∅ 4).1 0 = boxE tNIL 2 ∧
    (sweepF (fun _ => 0) ∅ 4).1 2 = boxE tNIL 4 ∧
    (sweepF (fun _ => 0) ∅ 4).1 4 = boxE tNIL 6 ∧
    (sweepF (fun _ => 0) ∅ 4).1 6 = boxE tNIL 0 ∧
    (consAlloc (sweepF (fun _ => 0) ∅ 4).1
      (sweepF (fun _ => 0) ∅ 4).2.1 nilE nilE).2.2.1 = boxE tCONS 0 ∧
    (consAlloc (sweepF (fun _ => 0) ∅ 4).1
      (sweepF (fun _ => 0) ∅ 4).2.1 nilE nilE).2.2.2 = false := by
  decide

lemma sweepGo_fp_eq_zero (used : Finset ℕ) :
    ∀ (i : ℕ) (c : ℕ → ℕ) (fp j : ℕ),
      ((sweepGo used i c fp j).2.1 = 0 ↔
        (0 ∉ used ∧ 0 < i) ∨ ((∀ k < i, k ∈ used) ∧ fp = 0)) := by
  intro i
  induction i with
  | zero => intro c fp j; simp [sweepGo]
  | succ i ih =>
      intro c fp j
      by_cases hi : i ∈ used
      · rw [sweepGo, if_pos hi, ih]
        constructor
        · rintro (⟨h0, _⟩ | ⟨hall, hfp⟩)
          · exact Or.inl ⟨h0, by omega⟩
          · refine Or.inr ⟨fun k hk => ?_, hfp⟩
            rcases Nat.lt_succ_iff_lt_or_eq.mp hk with h | h
            · exact hall k h
            · subst h; exact hi
        · rintro (⟨h0, _⟩ | ⟨hall, hfp⟩)
          · by_cases hip : 0 < i
            · exact Or.inl ⟨h0, hip⟩
            · exact absurd hi (by simpa [show i = 0 by omega] using h0)
          · exact Or.inr ⟨fun k hk => hall k (by omega), hfp⟩
      · rw [sweepGo, if_neg hi, ih]
        constructor
        · rintro (⟨h0, _⟩ | ⟨_, h2i⟩)
          · exact Or.inl ⟨h0, by omega⟩
          · have hi0 : i = 0 := by omega
            subst hi0
            exact Or.inl ⟨hi, by omega⟩
        · rintro (⟨h0, _⟩ | ⟨hall, _⟩)
          · by_cases hip : 0 < i
            · exact Or.inl ⟨h0, hip⟩
            · have hi0 : i = 0 := by omega
              subst hi0
              exact Or.inr ⟨by omega, by omega⟩
          · exact absurd (hall i (by omega)) hi

/-- Claim C5 (amended): `fp = 0` after a sweep denotes a free list that
is either empty or headed by pair 0: it holds iff pair 0 is unmarked
(and the pool is nonempty) or every pair is marked.  Pair 0 is
allocated like any other: whenever pair 0 is free after a sweep, the
next `cons` returns `box(CONS, 0)` as a live pair. -/
theorem c5_fp_zero_amended (c : ℕ → ℕ) (used : Finset ℕ) (n : ℕ) (x y : ℕ) :
    ((sweepF c used n).2.1 = 0 ↔ (0 < n ∧ 0 ∉ used) ∨ (∀ k < n, k ∈ used)) ∧
    (0 ∉ used → 0 < n →
      (consAlloc (sweepF c used n).1 (sweepF c used n).2.1 x y).2.2.1 =
        boxE tCONS 0) := by
  have h := sweepGo_fp_eq_zero used n c 0 0
  constructor
  · rw [sweepF, h]
    constructor
    · rintro (⟨h0, hn⟩ | ⟨hall, _⟩)
      · exact Or.inl ⟨hn, h0⟩
      · exact Or.inr hall
    · rintro (⟨hn, h0⟩ | hall)
      · exact Or.inl ⟨h0, hn⟩
      · exact Or.inr ⟨hall, rfl⟩
  · intro h0 hn
    have hfp : (sweepF c used n).2.1 = 0 := by
      rw [sweepF, h]; exact Or.inl ⟨h0, hn⟩
    rw [hfp]
    rfl

/-- Witness for `c5_fp_zero_amended`: empty mark set, two pairs. -/
theorem c5_fp_zero_amended_witness :
    (consAlloc (sweepF (fun _ => 0) (∅ : Finset ℕ) 2).1
      (sweepF (fun _ => 0) (∅ : Finset ℕ) 2).2.1 nilE nilE).2.2.1 =
      boxE tCONS 0 :=
  (c5_fp_zero_amended (fun _ => 0) ∅ 2 nilE nilE).2 (by decide) (by decide)

lemma peekB_cons (b : ℕ) (r : List ℕ) : peekB (b :: r) = b := rfl

lemma nextB_cons (b : ℕ) (r : List ℕ) : nextB (b :: r) = r := rfl

lemma skipWs_noskip (s : List ℕ) (h1 : isWhiteB (peekB s) = false)
    (h2 : peekB s ≠ 59) : ∀ f, 1 ≤ f → skipWs f s = some s := by
  intro f hf
  cases f with
  | zero => omega
  | succ g => simp [skipWs, h1, h2]

lemma skipWs_opt (sp : Bool) (s : List ℕ) (h1 : isWhiteB (peekB s) = false)
    (h2 : peekB s ≠ 59) : ∀ f, 2 ≤ f → skipWs f (spacePre sp ++ s) = some s := by
  intro f hf
  cases sp with
  | false => simpa [spacePre] using skipWs_noskip s h1 h2 f (by omega)
  | true =>
      cases f with
      | zero => omega
      | succ g =>
          have hstep : skipWs (g + 1) (spacePre true ++ s) = skipWs g s := by
            show skipWs (g + 1) (32 :: s) = skipWs g s
            rw [skipWs, peekB_cons, nextB_cons,
              if_pos (show isWhiteB 32 = true from rfl)]
          rw [hstep]
          exact skipWs_noskip s h1 h2 g (by omega)

lemma escLoop_nostep (f i : ℕ) (acc s : List ℕ) (h : peekB s ≠ 92) :
    escLoop f i acc s = (i, acc, s) := by
  cases f with
  | zero => rfl
  | succ g => simp [escLoop, h]

lemma symLoop_run : ∀ (tok rest acc : List ℕ) (i f : ℕ),
    tok ≠ [] → (∀ b ∈ tok, goodAtomChar b = true) →
    isDelimB (peekB rest) = true → i + tok.length ≤ 255 → tok.length ≤ f →
    symLoop f i acc (tok ++ rest) = (acc ++ tok, rest) := by
  intro tok
  induction tok with
  | nil => intro rest acc i f hne; exact absurd rfl hne
  | cons t tt ih =>
      intro rest acc i f _ hc hdelim hlen hf
      cases f with
      | zero => simp at hf
      | succ g =>
          cases tt with
          | nil =>
              have hstop : ¬(i + 1 < 255 ∧ peekB rest ≠ 40 ∧ peekB rest ≠ 41 ∧
                  ¬isWhiteB (peekB rest) = true) := by
                simp only [isDelimB, Bool.or_eq_true, decide_eq_true_eq] at hdelim
                rcases hdelim with hw | hw | hw
                · intro hcon; exact hcon.2.2.2 hw
                · intro hcon; exact hcon.2.1 (by simpa using hw)
                · intro hcon; exact hcon.2.2.1 (by simpa using hw)
              rw [List.cons_append, List.nil_append, symLoop, peekB_cons,
                nextB_cons, if_neg hstop]
          | cons t2 tt2 =>
              have ht2 := hc t2 (by simp)
              simp only [goodAtomChar, Bool.and_eq_true, decide_eq_true_eq,
                Bool.not_eq_true'] at ht2
              have hgo : (i + 1 < 255 ∧ peekB (t2 :: (tt2 ++ rest)) ≠ 40 ∧
                  peekB (t2 :: (tt2 ++ rest)) ≠ 41 ∧
                  ¬isWhiteB (peekB (t2 :: (tt2 ++ rest))) = true) := by
                refine ⟨by simp at hlen; omega, ?_, ?_, ?_⟩ <;>
                  simp [peekB_cons, ht2.1, ht2.2.1, ht2.2.2.1]
              rw [List.cons_append, List.cons_append, symLoop, peekB_cons,
                nextB_cons, if_pos hgo]
              have hih := ih rest (acc ++ [t]) (i + 1) g (by simp)
                (fun b hb => hc b (by simp [hb])) hdelim
                (by simp at hlen ⊢; omega) (by simp at hf ⊢; omega)
              rw [List.cons_append] at hih
              rw [hih, List.append_assoc]
              rfl

lemma strLoop_run : ∀ (cs : List ℕ) (c : ℕ) (rest acc : List ℕ) (i f : ℕ),
    (∀ b ∈ cs, goodStrChar b = true) → c ≠ 92 → i + cs.length < 255 →
    cs.length + 1 ≤ f →
    strLoop f i acc (c :: (cs ++ ([34] ++ rest))) = .ok (acc ++ (c :: cs), rest) := by
  intro cs
  induction cs with
  | nil =>
      intro c rest acc i f _ hc92 hlen hf
      cases f with
      | zero => omega
      | succ g =>
          have hesc := escLoop_nostep g (i + 1) (acc ++ [c]) (34 :: rest)
            (by rw [peekB_cons]; omega)
          rw [List.nil_append, List.singleton_append, strLoop, peekB_cons, nextB_cons, hesc]
          rw [if_neg (by rw [peekB_cons]; omega)]
          rw [if_pos (by rw [peekB_cons]), nextB_cons]
  | cons c2 cs2 ih =>
      intro c rest acc i f hc hc92 hlen hf
      cases f with
      | zero => simp at hf
      | succ g =>
          have h2 := hc c2 (by simp)
          simp only [goodStrChar, Bool.and_eq_true, decide_eq_true_eq] at h2
          have hesc := escLoop_nostep g (i + 1) (acc ++ [c])
            (c2 :: (cs2 ++ ([34] ++ rest))) (by rw [peekB_cons]; exact h2.2.1)
          rw [List.cons_append, strLoop, peekB_cons, nextB_cons, hesc]
          rw [if_pos (by
            rw [peekB_cons]
            refine ⟨by simp at hlen; omega, h2.1, h2.2.2.1⟩)]
          have hih := ih c2 rest (acc ++ [c]) (i + 1) g
            (fun b hb => hc b (by simp [hb]))
            h2.2.1 (by simp at hlen ⊢; omega) (by simp at hf ⊢; omega)
          rw [hih, List.append_assoc]
          rfl

lemma head_ne_of_headq {t : ℕ} {tt : List ℕ} {b : ℕ}
    (h : (t :: tt).head? ≠ some b) : t ≠ b := by
  intro he
  exact h (by rw [he, List.head?_cons])

lemma scanT_eq_of_skip {f : ℕ} {s s1 : List ℕ} (h : skipWs f s = some s1) :
    scanT f s = (if peekB s1 = 34 then strLoop f 0 [] s1
      else if peekB s1 = 40 ∨ peekB s1 = 41 ∨ peekB s1 = 39 then
        .ok ([peekB s1], nextB s1)
      else .ok (symLoop f 0 [] s1)) := by
  rw [scanT, h]

lemma scanT_sym_run (tok rest : List ℕ) (sp : Bool) (f : ℕ)
    (hne : tok ≠ []) (hc : ∀ b ∈ tok, goodAtomChar b = true)
    (h34 : tok.head? ≠ some 34) (h39 : tok.head? ≠ some 39)
    (h59 : tok.head? ≠ some 59) (hlen : tok.length ≤ 255)
    (hdelim : isDelimB (peekB rest) = true) (hf : tok.length + 2 ≤ f) :
    scanT f (spacePre sp ++ (tok ++ rest)) = .ok (tok, rest) := by
  obtain ⟨t, tt, rfl⟩ : ∃ t tt, tok = t :: tt := by
    cases tok with
    | nil => exact absurd rfl hne
    | cons t tt => exact ⟨t, tt, rfl⟩
  have ht := hc t (by simp)
  simp only [goodAtomChar, Bool.and_eq_true, decide_eq_true_eq,
    Bool.not_eq_true] at ht
  have ht34 := head_ne_of_headq h34
  have ht39 := head_ne_of_headq h39
  have ht59 := head_ne_of_headq h59
  have hsk := skipWs_opt sp ((t :: tt) ++ rest)
    (by rw [List.cons_append, peekB_cons]; exact ht.1)
    (by rw [List.cons_append, peekB_cons]; exact ht59) f (by omega)
  rw [scanT_eq_of_skip hsk]
  rw [List.cons_append, peekB_cons, nextB_cons]
  rw [if_neg ht34, if_neg (by push_neg; exact ⟨ht.2.1, ht.2.2.1, ht39⟩)]
  have hsym := symLoop_run (t :: tt) rest [] 0 f (by simp)
    hc hdelim (by omega) (by omega)
  rw [List.cons_append] at hsym
  rw [hsym, List.nil_append]

lemma scanT_str_run (content rest : List ℕ) (sp : Bool) (f : ℕ)
    (hc : ∀ b ∈ content, goodStrChar b = true) (hlen : content.length ≤ 254)
    (hf : content.length + 3 ≤ f) :
    scanT f (spacePre sp ++ (34 :: (content ++ ([34] ++ rest)))) =
      .ok (34 :: content, rest) := by
  have hsk := skipWs_opt sp (34 :: (content ++ ([34] ++ rest)))
    (by rw [peekB_cons]; rfl) (by rw [peekB_cons]; omega) f (by omega)
  rw [scanT_eq_of_skip hsk, peekB_cons, if_pos rfl]
  have hsl := strLoop_run content 34 rest [] 0 f hc (by omega) (by omega) (by omega)
  rw [hsl, List.nil_append]

lemma scanT_single_run (b : ℕ) (rest : List ℕ) (sp : Bool) (f : ℕ)
    (hb : b = 40 ∨ b = 41 ∨ b = 39) (hf : 2 ≤ f) :
    scanT f (spacePre sp ++ (b :: rest)) = .ok ([b], rest) := by
  have hsk := skipWs_opt sp (b :: rest)
    (by rw [peekB_cons]; simp only [isWhiteB]
        rcases hb with h | h | h <;> subst h <;> rfl)
    (by rw [peekB_cons]; omega) f (by omega)
  rw [scanT_eq_of_skip hsk, peekB_cons, nextB_cons]
  rw [if_neg (by omega), if_pos hb]

lemma scanT_dot_run (X : List ℕ) (f : ℕ) (hf : 4 ≤ f) :
    scanT f (32 :: (46 :: (32 :: X))) = .ok ([46], 32 :: X) := by
  have hsk : skipWs f (32 :: (46 :: (32 :: X))) = some (46 :: (32 :: X)) := by
    simpa [spacePre] using skipWs_opt true (46 :: (32 :: X))
      (by rw [peekB_cons]; rfl) (by rw [peekB_cons]; omega) f (by omega)
  rw [scanT_eq_of_skip hsk, peekB_cons, nextB_cons]
  rw [if_neg (by omega), if_neg (by push_neg; omega)]
  have hsym := symLoop_run [46] (32 :: X) [] 0 f (by simp)
    (by intro b hb; simp at hb; subst hb; rfl) (by rfl) (by simp)
    (by simp only [List.length_singleton]; omega)
  simp only [List.singleton_append] at hsym
  rw [hsym, List.nil_append]

lemma sexp_sizeOf_pos (v : Sexp) : 1 ≤ sizeOf v := by
  cases v <;> (simp; try omega)

lemma headq_ne_of_good {s : List ℕ} (hne : s ≠ [])
    (hc : ∀ b ∈ s, goodAtomChar b = true) :
    s.head? ≠ some 40 ∧ s.head? ≠ some 41 := by
  cases s with
  | nil => exact absurd rfl hne
  | cons t tt =>
      have ht := hc t (by simp)
      simp only [goodAtomChar, Bool.and_eq_true, decide_eq_true_eq] at ht
      constructor <;> (intro h; rw [List.head?_cons, Option.some_inj] at h; omega)

lemma delim_printTail (numPrint primName : ℕ → List ℕ) (d : Sexp)
    (rest : List ℕ) :
    isDelimB (peekB (printTailE numPrint primName d ++ (41 :: rest))) = true := by
  cases d <;> simp [printTailE, peekB_cons, isDelimB, isWhiteB]

lemma roundtripAB
    (numParse : List ℕ → Option ℕ) (numPrint primName : ℕ → List ℕ)
    (hc1 : ∀ bits, numParse (numPrint bits) = some bits)
    (hc2 : ∀ bits, numPrint bits ≠ [] ∧ (∀ b ∈ numPrint bits, goodAtomChar b = true) ∧
      (numPrint bits).head? ≠ some 34 ∧ (numPrint bits).head? ≠ some 39 ∧
      (numPrint bits).head? ≠ some 59 ∧ numPrint bits ≠ [46] ∧
      (numPrint bits).length ≤ 255) :
    ∀ n : ℕ,
      (∀ v : Sexp, sizeOf v ≤ n → GoodS numParse v →
        ∀ rest : List ℕ, isDelimB (peekB rest) = true →
          ∃ tok s1, tok.head? ≠ some 41 ∧ tok ≠ [46] ∧
            (∀ sp : Bool, ∀ f, fuelS v ≤ f →
              scanT f (spacePre sp ++ (printE numPrint primName v ++ rest)) = .ok (tok, s1)) ∧
            (∀ f, fuelS v ≤ f → parseT numParse f tok s1 = .ok (v, rest))) ∧
      (∀ a d : Sexp, sizeOf a + sizeOf d ≤ n → GoodS numParse a → GoodS numParse d →
        ∀ rest : List ℕ, ∀ sp : Bool, ∀ f, fuelS a + fuelTailS d ≤ f →
          listT numParse f (spacePre sp ++ (printE numPrint primName a ++
            (printTailE numPrint primName d ++ (41 :: rest)))) = .ok (.cons a d, rest)) := by
  intro n
  induction n using Nat.strong_induction_on with
  | _ n ih =>
  constructor
  · -- part A: scanning and parsing the printed form of a good value
    intro v hsz hg rest hdelim
    cases hg with
    | gnil =>
        have h1 : fuelS Sexp.snil = 300 := by simp [fuelS]
        refine ⟨[40], 41 :: rest, by simp, by simp, ?_, ?_⟩
        · intro sp f hfu
          rw [show printE numPrint primName .snil = [40, 41] from by simp [printE]]
          exact scanT_single_run 40 (41 :: rest) sp f (Or.inl rfl) (by omega)
        · intro f hfu
          obtain ⟨f1, rfl⟩ : ∃ f1, f = f1 + 1 := ⟨f - 1, by omega⟩
          obtain ⟨f2, rfl⟩ : ∃ f2, f1 = f2 + 1 := ⟨f1 - 1, by omega⟩
          have hscan : scanT f2 (41 :: rest) = .ok ([41], rest) := by
            simpa [spacePre] using
              scanT_single_run 41 rest false f2 (Or.inr (Or.inl rfl)) (by omega)
          simp only [parseT, List.head?_cons, if_pos rfl, listT, hscan, okBind]
          simp
    | gnum bits =>
        have h1 : fuelS (Sexp.num bits) = 300 := by simp [fuelS]
        obtain ⟨hne, hcg, h34, h39, h59, hdot, hlen⟩ := hc2 bits
        have h4041 := headq_ne_of_good hne hcg
        refine ⟨numPrint bits, rest, h4041.2, hdot, ?_, ?_⟩
        · intro sp f hfu
          rw [show printE numPrint primName (.num bits) = numPrint bits from by
            simp [printE]]
          exact scanT_sym_run (numPrint bits) rest sp f hne hcg h34 h39 h59 hlen
            hdelim (by omega)
        · intro f hfu
          obtain ⟨f1, rfl⟩ : ∃ f1, f = f1 + 1 := ⟨f - 1, by omega⟩
          simp only [parseT, if_neg h4041.1, if_neg h39, if_neg h34, hc1 bits]
    | gatom s hne hcg h34 h39 h59 hdot hlen hnp =>
        have h1 : fuelS (Sexp.atom s) = 300 := by simp [fuelS]
        have h4041 := headq_ne_of_good hne hcg
        refine ⟨s, rest, h4041.2, hdot, ?_, ?_⟩
        · intro sp f hfu
          rw [show printE numPrint primName (.atom s) = s from by simp [printE]]
          exact scanT_sym_run s rest sp f hne hcg h34 h39 h59 hlen hdelim (by omega)
        · intro f hfu
          obtain ⟨f1, rfl⟩ : ∃ f1, f = f1 + 1 := ⟨f - 1, by omega⟩
          simp only [parseT, if_neg h4041.1, if_neg h39, if_neg h34, hnp,
            if_neg h4041.2]
    | gstr s hcg hlen =>
        have h1 : fuelS (Sexp.sstr s) = 300 := by simp [fuelS]
        refine ⟨34 :: s, rest, by simp, by simp, ?_, ?_⟩
        · intro sp f hfu
          rw [show printE numPrint primName (.sstr s) = [34] ++ s ++ [34] from by
            simp [printE]]
          have := scanT_str_run s rest sp f hcg hlen (by omega)
          simpa [List.append_assoc, List.singleton_append] using this
        · intro f hfu
          obtain ⟨f1, rfl⟩ : ∃ f1, f = f1 + 1 := ⟨f - 1, by omega⟩
          simp only [parseT, List.head?_cons]
          simp
    | gcons a d hga hgd =>
        have h1 : fuelS (Sexp.cons a d) = fuelS a + fuelTailS d + 300 := by
          simp [fuelS]
        have hprint : printE numPrint primName (.cons a d) =
            [40] ++ printE numPrint primName a ++ printTailE numPrint primName d
              ++ [41] := by
          simp [printE]
        refine ⟨[40], printE numPrint primName a ++
          (printTailE numPrint primName d ++ (41 :: rest)), by simp, by simp,
          ?_, ?_⟩
        · intro sp f hfu
          rw [hprint]
          have := scanT_single_run 40 (printE numPrint primName a ++
            (printTailE numPrint primName d ++ (41 :: rest))) sp f (Or.inl rfl)
            (by omega)
          simpa [List.append_assoc, List.cons_append, List.singleton_append]
            using this
        · intro f hfu
          obtain ⟨f1, rfl⟩ : ∃ f1, f = f1 + 1 := ⟨f - 1, by omega⟩
          have hlt : sizeOf a + sizeOf d < n := by
            have := sexp_sizeOf_pos a
            have := sexp_sizeOf_pos d
            simp at hsz
            omega
          have hB := ((ih (sizeOf a + sizeOf d) hlt).2 a d le_rfl hga hgd rest
            false f1 (by omega))
          simp only [parseT, List.head?_cons, if_pos rfl]
          simpa [spacePre] using hB
  · -- part B: reading back a printed list body
    intro a d hsz hga hgd rest sp f hf
    have hda := sexp_sizeOf_pos a
    have hdd := sexp_sizeOf_pos d
    have hfa : 300 ≤ fuelTailS d := by cases d <;> simp [fuelTailS] <;> omega
    have hfb : 300 ≤ fuelS a := by cases a <;> simp [fuelS] <;> omega
    obtain ⟨f1, rfl⟩ : ∃ f1, f = f1 + 1 := ⟨f - 1, by omega⟩
    have hlta : sizeOf a < n := by omega
    obtain ⟨tokA, s1A, hA41, hA46, hAscan, hAparse⟩ :=
      (ih (sizeOf a) hlta).1 a le_rfl hga
        (printTailE numPrint primName d ++ (41 :: rest))
        (delim_printTail numPrint primName d rest)
    have hscanA := hAscan sp f1 (by omega)
    have hparseA := hAparse f1 (by omega)
    simp only [listT, hscanA, okBind, if_neg hA41, if_neg hA46, hparseA]
    -- now the recursive tail
    cases hgd with
    | gnil =>
        obtain ⟨f2, rfl⟩ : ∃ f2, f1 = f2 + 1 := ⟨f1 - 1, by omega⟩
        have hscan41 : scanT f2 (41 :: rest) = .ok ([41], rest) := by
          simpa [spacePre] using
            scanT_single_run 41 rest false f2 (Or.inr (Or.inl rfl)) (by omega)
        simp only [printTailE, List.nil_append, listT, hscan41, okBind,
          List.head?_cons, if_pos rfl]
        simp [okBind]
    | gcons b d2 hgb hgd2 =>
        have hltb : sizeOf b + sizeOf d2 < n := by
          simp at hsz
          omega
        have hfd : fuelTailS (Sexp.cons b d2) = fuelS b + fuelTailS d2 + 300 := by
          simp [fuelTailS]
        have hB := (ih (sizeOf b + sizeOf d2) hltb).2 b d2 le_rfl hgb hgd2 rest
          true f1 (by omega)
        simp only [printTailE]
        have hB2 : listT numParse f1 (32 :: (printE numPrint primName b ++
            (printTailE numPrint primName d2 ++ (41 :: rest)))) =
            .ok (.cons b d2, rest) := by
          simpa [spacePre, List.append_assoc] using hB
        simp only [List.cons_append, List.nil_append, List.append_assoc, hB2, okBind]
    | gnum bits =>
        have hfd : fuelTailS (Sexp.num bits) = 900 := by simp [fuelTailS]
        have hltx : sizeOf (Sexp.num bits) < n := by omega
        obtain ⟨tokX, s1X, hX41, hX46, hXscan, hXparse⟩ :=
          (ih (sizeOf (Sexp.num bits)) hltx).1 (Sexp.num bits) le_rfl
            (GoodS.gnum bits) (41 :: rest) (by rfl)
        obtain ⟨f2, rfl⟩ : ∃ f2, f1 = f2 + 1 := ⟨f1 - 1, by omega⟩
        obtain ⟨f3, rfl⟩ : ∃ f3, f2 = f3 + 1 := ⟨f2 - 1, by omega⟩
        have hfx : fuelS (Sexp.num bits) = 300 := by simp [fuelS]
        have hdot2 : scanT (f3 + 1) (32 :: (46 :: (32 :: (printE numPrint
            primName (.num bits) ++ (41 :: rest))))) =
            .ok ([46], 32 :: (printE numPrint primName (.num bits) ++
              (41 :: rest))) := scanT_dot_run _ _ (by omega)
        have hscanX := hXscan true f3 (by omega)
        have hparseX := hXparse f3 (by omega)
        have hscan41 : scanT (f3 + 1) (41 :: rest) = .ok ([41], rest) := by
          simpa [spacePre] using
            scanT_single_run 41 rest false (f3 + 1) (Or.inr (Or.inl rfl))
              (by omega)
        simp only [printTailE, listT]
        rw [show (32 : ℕ) :: (46 :: (32 :: (printE numPrint primName
          (.num bits) ++ (41 :: rest)))) = [32, 46, 32] ++ (printE numPrint
          primName (.num bits) ++ (41 :: rest)) from rfl] at hdot2
        simp only [List.cons_append, List.append_assoc] at hdot2 ⊢
        simp only [hdot2, okBind, List.head?_cons]
        have h41f : ((some 46 : Option ℕ) = some 41) = False := by simp
        have h41g : (([46] : List ℕ).head? = some 41) = False := by simp
        simp only [h41f, h41g, if_false, eq_self_iff_true, if_true]
        simp only [readT, okBind]
        simp only [spacePre, if_true, List.nil_append] at hscanX
        simp only [List.cons_append, List.nil_append,
          List.append_assoc] at hscanX
        simp only [hscanX, okBind, hparseX, hscan41, List.head?_cons,
          eq_self_iff_true, if_true, okBind]
    | gatom s hne hcg h34 h39 h59 hdot hlen hnp =>
        have hfd : fuelTailS (Sexp.atom s) = 900 := by simp [fuelTailS]
        have hltx : sizeOf (Sexp.atom s) < n := by omega
        obtain ⟨tokX, s1X, hX41, hX46, hXscan, hXparse⟩ :=
          (ih (sizeOf (Sexp.atom s)) hltx).1 (Sexp.atom s) le_rfl
            (GoodS.gatom s hne hcg h34 h39 h59 hdot hlen hnp) (41 :: rest) (by rfl)
        obtain ⟨f2, rfl⟩ : ∃ f2, f1 = f2 + 1 := ⟨f1 - 1, by omega⟩
        obtain ⟨f3, rfl⟩ : ∃ f3, f2 = f3 + 1 := ⟨f2 - 1, by omega⟩
        have hfx : fuelS (Sexp.atom s) = 300 := by simp [fuelS]
        have hdot2 : scanT (f3 + 1) (32 :: (46 :: (32 :: (printE numPrint
            primName (.atom s) ++ (41 :: rest))))) =
            .ok ([46], 32 :: (printE numPrint primName (.atom s) ++
              (41 :: rest))) := scanT_dot_run _ _ (by omega)
        have hscanX := hXscan true f3 (by omega)
        have hparseX := hXparse f3 (by omega)
        have hscan41 : scanT (f3 + 1) (41 :: rest) = .ok ([41], rest) := by
          simpa [spacePre] using
            scanT_single_run 41 rest false (f3 + 1) (Or.inr (Or.inl rfl))
              (by omega)
        simp only [printTailE, listT]
        rw [show (32 : ℕ) :: (46 :: (32 :: (printE numPrint primName
          (.atom s) ++ (41 :: rest)))) = [32, 46, 32] ++ (printE numPrint
          primName (.atom s) ++ (41 :: rest)) from rfl] at hdot2
        simp only [List.cons_append, List.append_assoc] at hdot2 ⊢
        simp only [hdot2, okBind, List.head?_cons]
        have h41f : ((some 46 : Option ℕ) = some 41) = False := by simp
        have h41g : (([46] : List ℕ).head? = some 41) = False := by simp
        simp only [h41f, h41g, if_false, eq_self_iff_true, if_true]
        simp only [readT, okBind]
        simp only [spacePre, if_true, List.nil_append] at hscanX
        simp only [List.cons_append, List.nil_append,
          List.append_assoc] at hscanX
        simp only [hscanX, okBind, hparseX, hscan41, List.head?_cons,
          eq_self_iff_true, if_true, okBind]
    | gstr s hcg hlen =>
        have hfd : fuelTailS (Sexp.sstr s) = 900 := by simp [fuelTailS]
        have hltx : sizeOf (Sexp.sstr s) < n := by omega
        obtain ⟨tokX, s1X, hX41, hX46, hXscan, hXparse⟩ :=
          (ih (sizeOf (Sexp.sstr s)) hltx).1 (Sexp.sstr s) le_rfl
            (GoodS.gstr s hcg hlen) (41 :: rest) (by rfl)
        obtain ⟨f2, rfl⟩ : ∃ f2, f1 = f2 + 1 := ⟨f1 - 1, by omega⟩
        obtain ⟨f3, rfl⟩ : ∃ f3, f2 = f3 + 1 := ⟨f2 - 1, by omega⟩
        have hfx : fuelS (Sexp.sstr s) = 300 := by simp [fuelS]
        have hdot2 : scanT (f3 + 1) (32 :: (46 :: (32 :: (printE numPrint
            primName (.sstr s) ++ (41 :: rest))))) =
            .ok ([46], 32 :: (printE numPrint primName (.sstr s) ++
              (41 :: rest))) := scanT_dot_run _ _ (by omega)
        have hscanX := hXscan true f3 (by omega)
        have hparseX := hXparse f3 (by omega)
        have hscan41 : scanT (f3 + 1) (41 :: rest) = .ok ([41], rest) := by
          simpa [spacePre] using
            scanT_single_run 41 rest false (f3 + 1) (Or.inr (Or.inl rfl))
              (by omega)
        simp only [printTailE, listT]
        rw [show (32 : ℕ) :: (46 :: (32 :: (printE numPrint primName
          (.sstr s) ++ (41 :: rest)))) = [32, 46, 32] ++ (printE numPrint
          primName (.sstr s) ++ (41 :: rest)) from rfl] at hdot2
        simp only [List.cons_append, List.append_assoc] at hdot2 ⊢
        simp only [hdot2, okBind, List.head?_cons]
        have h41f : ((some 46 : Option ℕ) = some 41) = False := by simp
        have h41g : (([46] : List ℕ).head? = some 41) = False := by simp
        simp only [h41f, h41g, if_false, eq_self_iff_true, if_true]
        simp only [readT, okBind]
        simp only [spacePre, if_true, List.nil_append] at hscanX
        simp only [List.cons_append, List.nil_append,
          List.append_assoc] at hscanX
        simp only [hscanX, okBind, hparseX, hscan41, List.head?_cons,
          eq_self_iff_true, if_true, okBind]

/-- C2: the claim's own example is false: `print` (lines 1006-1023) emits
string bytes raw, with no escape sequences, so the one-byte string
holding a backslash prints as the three bytes `"\"` whose read (the
escape-processing `scan`, lines 489-503) consumes the closing quote as
an escaped character and fails with the syntax error 8 instead of
returning the string. -/
theorem c2_string_roundtrip_counterexample :
    printE (fun b => [256 + b]) (fun i => [63, i]) (.sstr [92]) =
      [34, 92, 34] ∧
    readT (fun l => match l with
      | [n] => if 256 ≤ n then some (n - 256) else none
      | _ => none) 20 ([34, 92, 34] ++ [10]) = .error 8 := by
  constructor
  · simp [printE]
  · have hscan : scanT 19 [34, 92, 34, 10] =
        (.error 8 : Except ℕ (List ℕ × List ℕ)) := by rfl
    simp only [readT, List.cons_append, List.nil_append, hscan, errBind]

/-- C2 (amended): round-trip holds for every printable value: Nil,
numbers (given a faithful token codec), atoms whose bytes form a single
clean token, strings whose bytes contain no quote, backslash, newline or
NUL, and acyclic cons trees of such leaves; reading the printed text
followed by a newline reproduces the value exactly. Strings containing
quote, backslash or newline bytes are excluded because `print` emits
string bytes raw (no escaping), so they do not round-trip. -/
theorem c2_roundtrip_amended
    (numParse : List ℕ → Option ℕ) (numPrint primName : ℕ → List ℕ)
    (hc1 : ∀ bits, numParse (numPrint bits) = some bits)
    (hc2 : ∀ bits, numPrint bits ≠ [] ∧
      (∀ b ∈ numPrint bits, goodAtomChar b = true) ∧
      (numPrint bits).head? ≠ some 34 ∧ (numPrint bits).head? ≠ some 39 ∧
      (numPrint bits).head? ≠ some 59 ∧ numPrint bits ≠ [46] ∧
      (numPrint bits).length ≤ 255)
    (v : Sexp) (hg : GoodS numParse v) (f : ℕ) (hf : fuelS v + 1 ≤ f) :
    readT numParse f (printE numPrint primName v ++ [10]) = .ok (v, [10]) := by
  obtain ⟨f1, rfl⟩ : ∃ f1, f = f1 + 1 := ⟨f - 1, by omega⟩
  obtain ⟨tok, s1, h41, h46, hscan, hparse⟩ :=
    (roundtripAB numParse numPrint primName hc1 hc2 (sizeOf v)).1 v le_rfl hg
      [10] (by decide)
  have h1 := hscan false f1 (by omega)
  simp only [spacePre, Bool.false_eq_true, if_false, List.nil_append] at h1
  simp only [readT, h1, okBind, hparse f1 (by omega)]

/-- C2 witness: with the one-token codec `bits ↦ [256 + bits]`, the
printed form of `(a 5 . "hi")` reads back to itself. -/
theorem c2_roundtrip_amended_witness :
    readT (fun l => match l with
        | [n] => if 256 ≤ n then some (n - 256) else none
        | _ => none)
      (fuelS (Sexp.cons (.atom [97]) (.cons (.num 5) (.sstr [104, 105]))) + 1)
      (printE (fun b => [256 + b]) (fun i => [63, i])
        (Sexp.cons (.atom [97]) (.cons (.num 5) (.sstr [104, 105]))) ++ [10]) =
    .ok (Sexp.cons (.atom [97]) (.cons (.num 5) (.sstr [104, 105])), [10]) := by
  refine c2_roundtrip_amended _ _ _ ?_ ?_ _ ?_ _ le_rfl
  · intro bits
    simp
  · intro bits
    refine ⟨by simp, ?_, by simp; omega, by simp; omega, by simp; omega,
      by simp; omega, by simp⟩
    intro b hb
    simp only [List.mem_singleton] at hb
    subst hb
    simp [goodAtomChar, isWhiteB]
    omega
  · refine GoodS.gcons _ _ ?_ (GoodS.gcons _ _ (GoodS.gnum 5) ?_)
    · exact GoodS.gatom [97] (by simp) (by decide) (by decide) (by decide)
        (by decide) (by decide) (by decide) (by decide)
    · exact GoodS.gstr [104, 105] (by decide) (by decide)
lemma tagOf_boxE (t v : ℕ) : tagOf (boxE t v) = t := by
  unfold tagOf boxE
  have h : v % 2 ^ 32 < 2 ^ 48 := lt_of_lt_of_le (Nat.mod_lt _ (by norm_num))
    (by norm_num)
  omega

lemma ordOf_boxE (t v : ℕ) : ordOf (boxE t v) = v % 2 ^ 32 := by
  unfold ordOf boxE
  have h32 : (0:ℕ) < 2 ^ 32 := by norm_num
  have : (2:ℕ) ^ 48 = 2 ^ 32 * 2 ^ 16 := by norm_num
  rw [this, Nat.mul_comm t, Nat.mul_assoc, Nat.add_comm, Nat.add_mul_mod_self_left,
    Nat.mod_mod_of_dvd _ dvd_rfl]

lemma updC_self (c : ℕ → ℕ) (i : ℕ) : updC c i (c i) = c := by
  funext k
  unfold updC
  by_cases h : k = i <;> simp [h]

lemma updC_updC (c : ℕ → ℕ) (i v w : ℕ) :
    updC (updC c i v) i w = updC c i w := by
  funext k
  unfold updC
  by_cases h : k = i <;> simp [h]

lemma updC_at (c : ℕ → ℕ) (i v : ℕ) : updC c i v i = v := by simp [updC]

lemma updC_ne (c : ℕ → ℕ) {i k : ℕ} (v : ℕ) (h : k ≠ i) :
    updC c i v k = c k := by simp [updC, h]

lemma markRec_marked {c : ℕ → ℕ} {i : ℕ} {u : Finset ℕ} (f : ℕ)
    (h : i / 2 ∈ u) : markRec c f i u = u := by
  cases f with
  | zero => rfl
  | succ f => simp [markRec, h]

lemma markRec_mono (c : ℕ → ℕ) (f : ℕ) :
    ∀ i u, u ⊆ markRec c f i u := by
  induction f with
  | zero => intro i u; exact subset_rfl
  | succ f ih =>
      intro i u
      by_cases h : i / 2 ∈ u
      · rw [markRec_marked _ h]
      · simp only [markRec, h, if_false]
        have h1 : u ⊆ insert (i / 2) u := Finset.subset_insert _ _
        have h2 : insert (i / 2) u ⊆
            (if isPairRef (c i) then markRec c f (ordOf (c i))
              (insert (i / 2) u) else insert (i / 2) u) := by
          by_cases hp : isPairRef (c i) <;> simp [hp, ih]
        by_cases hq : isPairRef (c (i + 1))
        · simp only [hq, if_true]
          exact (h1.trans h2).trans (ih _ _)
        · simp only [hq, if_false]
          exact h1.trans h2

lemma markRec_root {c : ℕ → ℕ} {f i : ℕ} {u : Finset ℕ} (hf : 1 ≤ f) :
    i / 2 ∈ markRec c f i u := by
  obtain ⟨g, rfl⟩ : ∃ g, f = g + 1 := ⟨f - 1, by omega⟩
  by_cases h : i / 2 ∈ u
  · rw [markRec_marked _ h]; exact h
  · simp only [markRec, h, if_false]
    have h1 : i / 2 ∈ insert (i / 2) u := Finset.mem_insert_self _ _
    have h2 : insert (i / 2) u ⊆
        (if isPairRef (c i) then markRec c g (ordOf (c i))
          (insert (i / 2) u) else insert (i / 2) u) := by
      by_cases hp : isPairRef (c i) <;> simp [hp, markRec_mono]
    by_cases hq : isPairRef (c (i + 1))
    · simp only [hq, if_true]
      exact markRec_mono _ _ _ _ (h2 h1)
    · simp only [hq, if_false]
      exact h2 h1

lemma WFc_mono {c : ℕ → ℕ} {n : ℕ} {u v : Finset ℕ} (h : u ⊆ v)
    (hw : WFc c n u) : WFc c n v := by
  intro k hk hv
  exact hw k hk (fun hu => hv (h hu))

lemma remCnt_le (n : ℕ) (u : Finset ℕ) : remCnt n u ≤ n := by
  unfold remCnt
  calc (Finset.range n \ u).card ≤ (Finset.range n).card :=
        Finset.card_le_card (Finset.sdiff_subset)
    _ = n := Finset.card_range n

lemma remCnt_mono {n : ℕ} {u v : Finset ℕ} (h : u ⊆ v) :
    remCnt n v ≤ remCnt n u :=
  Finset.card_le_card (Finset.sdiff_subset_sdiff subset_rfl h)

lemma remCnt_insert {n p : ℕ} {u : Finset ℕ} (hp : p < n) (hu : p ∉ u) :
    remCnt n (insert p u) = remCnt n u - 1 ∧ 1 ≤ remCnt n u := by
  have hmem : p ∈ Finset.range n \ u := by
    simp [Finset.mem_sdiff, Finset.mem_range, hp, hu]
  constructor
  · unfold remCnt
    have : Finset.range n \ insert p u = (Finset.range n \ u).erase p := by
      ext x
      simp [Finset.mem_sdiff, Finset.mem_erase, Finset.mem_insert]
      tauto
    rw [this, Finset.card_erase_of_mem hmem]
  · exact Finset.card_pos.mpr ⟨p, hmem⟩ 

lemma markRec_bound (c : ℕ → ℕ) (n : ℕ) (f : ℕ) :
    ∀ i u, WFc c n u → i % 2 = 0 → i < 2 * n →
      markRec c f i u ⊆ u ∪ Finset.range n := by
  induction f with
  | zero => intro i u _ _ _; exact Finset.subset_union_left
  | succ f ih =>
      intro i u hw he hi
      by_cases h : i / 2 ∈ u
      · rw [markRec_marked _ h]; exact Finset.subset_union_left
      · simp only [markRec, h, if_false]
        have hin : i / 2 < n := by omega
        have hi1 : i + 1 < 2 * n := by omega
        have hd : (i + 1) / 2 = i / 2 := by omega
        have hsub1 : insert (i / 2) u ⊆ u ∪ Finset.range n := by
          intro x hx
          rcases Finset.mem_insert.mp hx with rfl | hx
          · exact Finset.mem_union_right _ (Finset.mem_range.mpr hin)
          · exact Finset.mem_union_left _ hx
        have hw1 : WFc c n (insert (i / 2) u) :=
          WFc_mono (Finset.subset_insert _ _) hw
        have hcar : (if isPairRef (c i) then markRec c f (ordOf (c i))
            (insert (i / 2) u) else insert (i / 2) u) ⊆
            u ∪ Finset.range n := by
          by_cases hp : isPairRef (c i)
          · simp only [hp, if_true]
            obtain ⟨hke, hklt, _⟩ := hw i hi h hp
            exact (ih _ _ hw1 hke hklt).trans
              (Finset.union_subset hsub1 Finset.subset_union_right)
          · simp only [hp, Bool.false_eq_true, if_false]; exact hsub1
        have hu2a : u ⊆ (if isPairRef (c i) then markRec c f (ordOf (c i))
            (insert (i / 2) u) else insert (i / 2) u) := by
          by_cases hp : isPairRef (c i)
          · simp only [hp, if_true]
            exact (Finset.subset_insert _ _).trans (markRec_mono _ _ _ _)
          · simp only [hp, Bool.false_eq_true, if_false]; exact Finset.subset_insert _ _
        by_cases hq : isPairRef (c (i + 1))
        · simp only [hq, if_true]
          obtain ⟨hme, hmlt, _⟩ := hw (i + 1) hi1 (by rw [hd]; exact h) hq
          exact (ih _ _ (WFc_mono hu2a hw) hme hmlt).trans
            (Finset.union_subset hcar Finset.subset_union_right)
        · simp only [hq, Bool.false_eq_true, if_false]; exact hcar

lemma markRec_stable (c : ℕ → ℕ) (n : ℕ) :
    ∀ r i u f g, remCnt n u ≤ r → WFc c n u → i % 2 = 0 → i < 2 * n →
      remCnt n u ≤ f → remCnt n u ≤ g →
      markRec c f i u = markRec c g i u := by
  intro r
  induction r with
  | zero =>
      intro i u f g hr hw he hi hf hg
      have hmem : i / 2 ∈ u := by
        by_contra hmem
        have : i / 2 ∈ Finset.range n \ u := by
          simp [Finset.mem_sdiff, Finset.mem_range]
          exact ⟨by omega, hmem⟩
        have := Finset.card_pos.mpr ⟨_, this⟩
        unfold remCnt at hr
        omega
      rw [markRec_marked _ hmem, markRec_marked _ hmem]
  | succ r ih =>
      intro i u f g hr hw he hi hf hg
      by_cases h : i / 2 ∈ u
      · rw [markRec_marked _ h, markRec_marked _ h]
      · have hin : i / 2 < n := by omega
        obtain ⟨hins, hpos⟩ := remCnt_insert hin h
        obtain ⟨f1, rfl⟩ : ∃ f1, f = f1 + 1 := ⟨f - 1, by omega⟩
        obtain ⟨g1, rfl⟩ : ∃ g1, g = g1 + 1 := ⟨g - 1, by omega⟩
        simp only [markRec, h, if_false]
        have hi1 : i + 1 < 2 * n := by omega
        have hd : (i + 1) / 2 = i / 2 := by omega
        have hw1 : WFc c n (insert (i / 2) u) :=
          WFc_mono (Finset.subset_insert _ _) hw
        have hcar : (if isPairRef (c i) then markRec c f1 (ordOf (c i))
              (insert (i / 2) u) else insert (i / 2) u) =
            (if isPairRef (c i) then markRec c g1 (ordOf (c i))
              (insert (i / 2) u) else insert (i / 2) u) := by
          by_cases hp : isPairRef (c i)
          · simp only [hp, if_true]
            obtain ⟨hke, hklt, _⟩ := hw i hi h hp
            exact ih _ _ _ _ (by omega) hw1 hke hklt (by omega) (by omega)
          · simp only [hp, Bool.false_eq_true, if_false]
        rw [hcar]
        set u2 := (if isPairRef (c i) then markRec c g1 (ordOf (c i))
          (insert (i / 2) u) else insert (i / 2) u) with hu2
        have hu2a : u ⊆ u2 := by
          rw [hu2]
          by_cases hp : isPairRef (c i)
          · simp only [hp, if_true]
            exact (Finset.subset_insert _ _).trans (markRec_mono _ _ _ _)
          · simp only [hp, Bool.false_eq_true, if_false]; exact Finset.subset_insert _ _
        have hu2b : insert (i / 2) u ⊆ u2 := by
          rw [hu2]
          by_cases hp : isPairRef (c i)
          · simp only [hp, if_true]; exact markRec_mono _ _ _ _
          · simp only [hp, Bool.false_eq_true, if_false]; exact subset_rfl
        have hle : remCnt n u2 ≤ remCnt n u - 1 :=
          le_trans (remCnt_mono hu2b) (le_of_eq hins)
        have hcnt : remCnt n u2 ≤ r := by omega
        by_cases hq : isPairRef (c (i + 1))
        · simp only [hq, if_true]
          obtain ⟨hme, hmlt, _⟩ := hw (i + 1) hi1 (by rw [hd]; exact h) hq
          exact ih _ _ _ _ hcnt (WFc_mono hu2a hw) hme hmlt
            (by omega) (by omega)
        · simp only [hq, Bool.false_eq_true, if_false]

lemma markRec_frame (c1 c2 : ℕ → ℕ) (n : ℕ) (f : ℕ) :
    ∀ i u, WFc c1 n u → i % 2 = 0 → i < 2 * n →
      (∀ k, k / 2 ∉ u → c1 k = c2 k) →
      markRec c1 f i u = markRec c2 f i u := by
  induction f with
  | zero => intro i u _ _ _ _; rfl
  | succ f ih =>
      intro i u hw he hi hag
      by_cases h : i / 2 ∈ u
      · rw [markRec_marked _ h, markRec_marked _ h]
      · have hi1 : i + 1 < 2 * n := by omega
        have hd : (i + 1) / 2 = i / 2 := by omega
        have hc : c1 i = c2 i := hag i h
        have hc' : c1 (i + 1) = c2 (i + 1) := hag (i + 1) (by rw [hd]; exact h)
        simp only [markRec, h, if_false]
        rw [← hc, ← hc']
        have hw1 : WFc c1 n (insert (i / 2) u) :=
          WFc_mono (Finset.subset_insert _ _) hw
        have hag1 : ∀ k, k / 2 ∉ insert (i / 2) u → c1 k = c2 k := by
          intro k hk
          exact hag k (fun hmem => hk (Finset.mem_insert_of_mem hmem))
        have hcar : (if isPairRef (c1 i) then markRec c1 f (ordOf (c1 i))
              (insert (i / 2) u) else insert (i / 2) u) =
            (if isPairRef (c1 i) then markRec c2 f (ordOf (c1 i))
              (insert (i / 2) u) else insert (i / 2) u) := by
          by_cases hp : isPairRef (c1 i)
          · simp only [hp, if_true]
            obtain ⟨hke, hklt, _⟩ := hw i hi h hp
            exact ih _ _ hw1 hke hklt hag1
          · simp only [hp, Bool.false_eq_true, if_false]
        rw [hcar]
        set u2 := (if isPairRef (c1 i) then markRec c2 f (ordOf (c1 i))
          (insert (i / 2) u) else insert (i / 2) u) with hu2
        have hu2a : u ⊆ u2 := by
          rw [hu2]
          by_cases hp : isPairRef (c1 i)
          · simp only [hp, if_true]
            have h1 := markRec_mono c2 f (ordOf (c1 i)) (insert (i / 2) u)
            exact (Finset.subset_insert _ _).trans h1
          · simp only [hp, Bool.false_eq_true, if_false]; exact Finset.subset_insert _ _
        by_cases hq : isPairRef (c1 (i + 1))
        · simp only [hq, if_true]
          obtain ⟨hme, hmlt, _⟩ := hw (i + 1) hi1 (by rw [hd]; exact h) hq
          exact ih _ _ (WFc_mono hu2a hw) hme hmlt
            (fun k hk => hag k (fun hm => hk (hu2a hm)))
        · simp only [hq, Bool.false_eq_true, if_false]

lemma prRunIter_one (NS : ℕ) (st : MPhase × MSt) :
    prRunIter NS 1 st = prStep NS st := by
  simp [prRunIter]

lemma prRun_trans {NS a b : ℕ} {s s1 s2 : MPhase × MSt}
    (h1 : prRunIter NS a s = s1) (h2 : prRunIter NS b s1 = s2) :
    prRunIter NS (b + a) s = s2 := by
  subst h1
  subst h2
  exact Function.iterate_add_apply _ b a s

lemma prRun_done (NS t : ℕ) (s : MSt) :
    prRunIter NS t (.done, s) = (.done, s) := by
  induction t with
  | zero => rfl
  | succ t ih =>
      unfold prRunIter at ih ⊢
      rw [Function.iterate_succ_apply, show prStep NS (.done, s) = (.done, s)
        from rfl, ih]

lemma prStep_down_fresh1 {NS : ℕ} {c : ℕ → ℕ} {i j : ℕ} {u : Finset ℕ}
    (h : freshRef c (insert (i / 2) u) i = true) :
    prStep NS (.down, ⟨c, i, j, u⟩) =
      (.down, ⟨updC c i (boxE (tagOf (c i)) j), ordOf (c i), i,
        insert (i / 2) u⟩) := by
  simp [prStep, h]

lemma prStep_down_fresh2 {NS : ℕ} {c : ℕ → ℕ} {i j : ℕ} {u : Finset ℕ}
    (h1 : freshRef c (insert (i / 2) u) i = false)
    (h2 : freshRef c (insert (i / 2) u) (i + 1) = true) :
    prStep NS (.down, ⟨c, i, j, u⟩) =
      (.down, ⟨updC c (i + 1) (boxE (tagOf (c (i + 1))) j),
        ordOf (c (i + 1)), i + 1, insert (i / 2) u⟩) := by
  simp [prStep, h1, h2]

lemma prStep_down_none {NS : ℕ} {c : ℕ → ℕ} {i j : ℕ} {u : Finset ℕ}
    (h1 : freshRef c (insert (i / 2) u) i = false)
    (h2 : freshRef c (insert (i / 2) u) (i + 1) = false) :
    prStep NS (.down, ⟨c, i, j, u⟩) =
      (.up, ⟨c, i + 1, j, insert (i / 2) u⟩) := by
  simp [prStep, h1, h2]

lemma prStep_up_pop_even {NS : ℕ} {c : ℕ → ℕ} {i j : ℕ} {u : Finset ℕ}
    (h : j < NS) (hj : j % 2 = 0) :
    prStep NS (.up, ⟨c, i, j, u⟩) =
      (.down, ⟨updC c j (boxE (tagOf (c j)) (i - i % 2)), j,
        ordOf (c j), u⟩) := by
  simp [prStep, h, hj]

lemma prStep_up_pop_odd {NS : ℕ} {c : ℕ → ℕ} {i j : ℕ} {u : Finset ℕ}
    (h : j < NS) (hj : j % 2 = 1) :
    prStep NS (.up, ⟨c, i, j, u⟩) =
      (.up, ⟨updC c j (boxE (tagOf (c j)) (i - i % 2)), j,
        ordOf (c j), u⟩) := by
  simp [prStep, h, hj]

lemma prStep_up_exit_odd {NS : ℕ} {c : ℕ → ℕ} {i j : ℕ} {u : Finset ℕ}
    (h : ¬j < NS) (hi : i % 2 = 1) :
    prStep NS (.up, ⟨c, i, j, u⟩) = (.done, ⟨c, i, j, u⟩) := by
  simp [prStep, h, hi]

lemma freshRef_iff {c : ℕ → ℕ} {u : Finset ℕ} {k : ℕ} :
    freshRef c u k = true ↔
      isPairRef (c k) = true ∧ ordOf (c k) / 2 ∉ u := by
  simp [freshRef]

lemma markRec_notfresh {c : ℕ → ℕ} {x : ℕ} {u : Finset ℕ} (f : ℕ)
    (h : freshRef c u x = false) :
    (if isPairRef (c x) then markRec c f (ordOf (c x)) u else u) = u := by
  by_cases hp : isPairRef (c x)
  · simp only [hp, if_true]
    apply markRec_marked
    simpa [freshRef, hp] using h
  · simp [hp]

lemma revCell_ord {c : ℕ → ℕ} {x j : ℕ} (hj : j < 2 ^ 32) :
    ordOf (updC c x (boxE (tagOf (c x)) j) x) = j := by
  rw [updC_at, ordOf_boxE, Nat.mod_eq_of_lt hj]

lemma revCell_tag (c : ℕ → ℕ) (x j : ℕ) :
    tagOf (updC c x (boxE (tagOf (c x)) j) x) = tagOf (c x) := by
  rw [updC_at, tagOf_boxE]

lemma revCell_restore {c : ℕ → ℕ} {x j v : ℕ}
    (hcan : c x = boxE (tagOf (c x)) (ordOf (c x))) (hv : v = ordOf (c x)) :
    updC (updC c x (boxE (tagOf (c x)) j)) x (boxE (tagOf (c x)) v) = c := by
  rw [hv, updC_updC, ← hcan, updC_self]

lemma WFc_updC {c : ℕ → ℕ} {n : ℕ} {u : Finset ℕ} {x v : ℕ}
    (hw : WFc c n u) (hx : x / 2 ∈ u) : WFc (updC c x v) n u := by
  intro k hk hknm
  have hne : k ≠ x := fun he => hknm (he ▸ hx)
  rw [updC_ne _ _ hne]
  exact hw k hk hknm

lemma prDown (NS n : ℕ) (hNS : 2 * n ≤ NS) (hb : 2 * n < 2 ^ 32) :
    ∀ r (c : ℕ → ℕ) (u : Finset ℕ) (i j : ℕ),
      remCnt n u ≤ r → WFc c n u → i % 2 = 0 → i < 2 * n →
      i / 2 ∉ u → j < 2 ^ 32 →
      ∃ t, t ≤ 4 * (remCnt n u -
          remCnt n (markRec c (remCnt n u) i u)) ∧
        prRunIter NS t (.down, ⟨c, i, j, u⟩) =
          (.up, ⟨c, i + 1, j, markRec c (remCnt n u) i u⟩) := by
  intro r
  induction r with
  | zero =>
      intro c u i j hr hw he hi hnm hj
      exfalso
      have hm : i / 2 ∈ Finset.range n \ u := by
        simp only [Finset.mem_sdiff, Finset.mem_range]
        exact ⟨by omega, hnm⟩
      have := Finset.card_pos.mpr ⟨_, hm⟩
      unfold remCnt at hr
      omega
  | succ r ih =>
      intro c u i j hr hw he hi hnm hj
      have hin : i / 2 < n := by omega
      obtain ⟨hins, hpos⟩ := remCnt_insert hin hnm
      obtain ⟨F1, hF⟩ : ∃ F1, remCnt n u = F1 + 1 :=
        ⟨remCnt n u - 1, by omega⟩
      have hU1cnt : remCnt n (insert (i / 2) u) = F1 := by omega
      have hi1 : i + 1 < 2 * n := by omega
      have hd1 : (i + 1) / 2 = i / 2 := by omega
      have hwU1 : WFc c n (insert (i / 2) u) :=
        WFc_mono (Finset.subset_insert _ _) hw
      have hmrk : markRec c (remCnt n u) i u =
          (if isPairRef (c (i + 1)) then
            markRec c F1 (ordOf (c (i + 1)))
              (if isPairRef (c i) then markRec c F1 (ordOf (c i))
                (insert (i / 2) u) else insert (i / 2) u)
          else (if isPairRef (c i) then markRec c F1 (ordOf (c i))
                (insert (i / 2) u) else insert (i / 2) u)) := by
        rw [hF]
        simp only [markRec, hnm, if_false]
      by_cases hcar : freshRef c (insert (i / 2) u) i = true
      · obtain ⟨hpair, hkfresh⟩ := freshRef_iff.mp hcar
        obtain ⟨hke, hklt, hcan⟩ := hw i hi hnm hpair
        simp only [hpair, if_true] at hmrk
        set cR := updC c i (boxE (tagOf (c i)) j) with hcR
        have hmemU1 : i / 2 ∈ insert (i / 2) u := Finset.mem_insert_self _ _
        have hwR : WFc cR n (insert (i / 2) u) := WFc_updC hwU1 hmemU1
        have hagree : ∀ k, k / 2 ∉ insert (i / 2) u → cR k = c k := by
          intro k hk
          refine updC_ne _ _ (fun hekk => hk ?_)
          rw [hekk]
          exact hmemU1
        obtain ⟨t1, ht1b, ht1⟩ := ih cR (insert (i / 2) u) (ordOf (c i)) i
          (by omega) hwR hke hklt hkfresh (by omega)
        rw [hU1cnt] at ht1b ht1
        have hfr : markRec cR F1 (ordOf (c i)) (insert (i / 2) u) =
            markRec c F1 (ordOf (c i)) (insert (i / 2) u) :=
          markRec_frame cR c n F1 _ _ hwR hke hklt hagree
        rw [hfr] at ht1b ht1
        set M1 := markRec c F1 (ordOf (c i)) (insert (i / 2) u) with hM1
        have hF1pos : 1 ≤ F1 := by
          have hmm : ordOf (c i) / 2 ∈ Finset.range n \ insert (i / 2) u := by
            simp only [Finset.mem_sdiff, Finset.mem_range]
            exact ⟨by omega, hkfresh⟩
          have := Finset.card_pos.mpr ⟨_, hmm⟩
          unfold remCnt at hU1cnt
          omega
        have hkin : ordOf (c i) / 2 ∈ M1 := hM1 ▸ markRec_root hF1pos
        have hU1M1 : insert (i / 2) u ⊆ M1 := hM1 ▸ markRec_mono _ _ _ _
        have huM1 : u ⊆ M1 := (Finset.subset_insert _ _).trans hU1M1
        have hiM1 : i / 2 ∈ M1 := hU1M1 hmemU1
        have hinsM1 : insert (i / 2) M1 = M1 := Finset.insert_eq_self.mpr hiM1
        have hremM1 : remCnt n M1 ≤ F1 := by
          have := @remCnt_mono n _ _ hU1M1
          omega
        have hcarM1 : freshRef c M1 i = false := by
          simp [freshRef, hpair, hkin]
        have hc1 : freshRef c (insert (i / 2) M1) i = false := by
          rw [hinsM1]
          exact hcarM1
        have hstep1 : prRunIter NS 1 (.down, ⟨c, i, j, u⟩) =
            (.down, ⟨cR, ordOf (c i), i, insert (i / 2) u⟩) := by
          rw [prRunIter_one, prStep_down_fresh1 hcar]
        have hpop1 : prRunIter NS 1 (.up, ⟨cR, ordOf (c i) + 1, i, M1⟩) =
            (.down, ⟨c, i, j, M1⟩) := by
          rw [prRunIter_one, prStep_up_pop_even (show i < NS by omega) he]
          have h1 : updC cR i (boxE (tagOf (cR i))
              (ordOf (c i) + 1 - (ordOf (c i) + 1) % 2)) = c := by
            rw [hcR, revCell_tag,
              show ordOf (c i) + 1 - (ordOf (c i) + 1) % 2 = ordOf (c i)
                from by omega]
            exact revCell_restore hcan rfl
          have h2 : ordOf (cR i) = j := by
            rw [hcR]
            exact revCell_ord hj
          rw [h1, h2]
        have ha2 : prRunIter NS (1 + (t1 + 1)) (.down, ⟨c, i, j, u⟩) =
            (.down, ⟨c, i, j, M1⟩) :=
          prRun_trans (prRun_trans hstep1 ht1) hpop1
        by_cases hcdr2 : freshRef c M1 (i + 1) = true
        · obtain ⟨hpair2, hmfresh⟩ := freshRef_iff.mp hcdr2
          obtain ⟨hme, hmlt, hcan2⟩ := hw (i + 1) hi1 (hd1 ▸ hnm) hpair2
          have hc2 : freshRef c (insert (i / 2) M1) (i + 1) = true := by
            rw [hinsM1]
            exact hcdr2
          set cR2 := updC c (i + 1) (boxE (tagOf (c (i + 1))) j) with hcR2
          have hstep3 : prRunIter NS 1 (.down, ⟨c, i, j, M1⟩) =
              (.down, ⟨cR2, ordOf (c (i + 1)), i + 1, M1⟩) := by
            rw [prRunIter_one, prStep_down_fresh2 hc1 hc2, hinsM1]
          have hmem2 : (i + 1) / 2 ∈ M1 := by
            rw [hd1]
            exact hiM1
          have hwR2 : WFc cR2 n M1 := WFc_updC (WFc_mono huM1 hw) hmem2
          have hagree2 : ∀ k, k / 2 ∉ M1 → cR2 k = c k := by
            intro k hk
            refine updC_ne _ _ (fun hekk => hk ?_)
            rw [hekk]
            exact hmem2
          obtain ⟨t2, ht2b, ht2⟩ := ih cR2 M1 (ordOf (c (i + 1))) (i + 1)
            (by omega) hwR2 hme hmlt hmfresh (by omega)
          have hfr2 : markRec cR2 (remCnt n M1) (ordOf (c (i + 1))) M1 =
              markRec c (remCnt n M1) (ordOf (c (i + 1))) M1 :=
            markRec_frame cR2 c n _ _ _ hwR2 hme hmlt hagree2
          have hst2 : markRec c (remCnt n M1) (ordOf (c (i + 1))) M1 =
              markRec c F1 (ordOf (c (i + 1))) M1 :=
            markRec_stable c n (remCnt n M1) _ _ _ _ le_rfl
              (WFc_mono huM1 hw) hme hmlt le_rfl hremM1
          rw [hfr2, hst2] at ht2b ht2
          set M2 := markRec c F1 (ordOf (c (i + 1))) M1 with hM2
          have hfin : markRec c (remCnt n u) i u = M2 := by
            rw [hmrk]
            simp only [hpair2, if_true]
          have hM1M2 : M1 ⊆ M2 := hM2 ▸ markRec_mono _ _ _ _
          have hremM2 : remCnt n M2 ≤ remCnt n M1 := @remCnt_mono n _ _ hM1M2
          have hpop2 : prRunIter NS 1
              (.up, ⟨cR2, ordOf (c (i + 1)) + 1, i + 1, M2⟩) =
              (.up, ⟨c, i + 1, j, M2⟩) := by
            rw [prRunIter_one, prStep_up_pop_odd (by omega) (by omega)]
            have h1 : updC cR2 (i + 1) (boxE (tagOf (cR2 (i + 1)))
                (ordOf (c (i + 1)) + 1 - (ordOf (c (i + 1)) + 1) % 2)) = c := by
              rw [hcR2, revCell_tag,
                show ordOf (c (i + 1)) + 1 - (ordOf (c (i + 1)) + 1) % 2 =
                  ordOf (c (i + 1)) from by omega]
              exact revCell_restore hcan2 rfl
            have h2 : ordOf (cR2 (i + 1)) = j := by
              rw [hcR2]
              exact revCell_ord hj
            rw [h1, h2]
          have ha5 : prRunIter NS (1 + (t2 + (1 + (1 + (t1 + 1)))))
              (.down, ⟨c, i, j, u⟩) = (.up, ⟨c, i + 1, j, M2⟩) :=
            prRun_trans (prRun_trans (prRun_trans ha2 hstep3) ht2) hpop2
          refine ⟨1 + (t2 + (1 + (1 + (t1 + 1)))), ?_, ?_⟩
          · rw [hfin]
            omega
          · rw [hfin]
            exact ha5
        · rw [Bool.not_eq_true] at hcdr2
          have hc2 : freshRef c (insert (i / 2) M1) (i + 1) = false := by
            rw [hinsM1]
            exact hcdr2
          have hstep3 : prRunIter NS 1 (.down, ⟨c, i, j, M1⟩) =
              (.up, ⟨c, i + 1, j, M1⟩) := by
            rw [prRunIter_one, prStep_down_none hc1 hc2, hinsM1]
          have hfin : markRec c (remCnt n u) i u = M1 := by
            rw [hmrk]
            exact markRec_notfresh _ hcdr2
          have ha3 : prRunIter NS (1 + (1 + (t1 + 1)))
              (.down, ⟨c, i, j, u⟩) = (.up, ⟨c, i + 1, j, M1⟩) :=
            prRun_trans ha2 hstep3
          refine ⟨1 + (1 + (t1 + 1)), ?_, ?_⟩
          · rw [hfin]
            omega
          · rw [hfin]
            exact ha3
      · rw [Bool.not_eq_true] at hcar
        have hu2 : (if isPairRef (c i) then markRec c F1 (ordOf (c i))
            (insert (i / 2) u) else insert (i / 2) u) = insert (i / 2) u :=
          markRec_notfresh _ hcar
        rw [hu2] at hmrk
        by_cases hcdr : freshRef c (insert (i / 2) u) (i + 1) = true
        · obtain ⟨hpair2, hmfresh⟩ := freshRef_iff.mp hcdr
          obtain ⟨hme, hmlt, hcan2⟩ := hw (i + 1) hi1 (hd1 ▸ hnm) hpair2
          have hfin : markRec c (remCnt n u) i u =
              markRec c F1 (ordOf (c (i + 1))) (insert (i / 2) u) := by
            rw [hmrk]
            simp only [hpair2, if_true]
          set cR2 := updC c (i + 1) (boxE (tagOf (c (i + 1))) j) with hcR2
          have hmemU1 : (i + 1) / 2 ∈ insert (i / 2) u := by
            rw [hd1]; exact Finset.mem_insert_self _ _
          have hwR : WFc cR2 n (insert (i / 2) u) := WFc_updC hwU1 hmemU1
          have hagree : ∀ k, k / 2 ∉ insert (i / 2) u → cR2 k = c k := by
            intro k hk
            refine updC_ne _ _ (fun he => hk ?_)
            rw [he]
            exact hmemU1
          obtain ⟨t1, ht1b, ht1⟩ := ih cR2 (insert (i / 2) u)
            (ordOf (c (i + 1))) (i + 1) (by omega) hwR hme hmlt hmfresh
            (by omega)
          rw [hU1cnt] at ht1b ht1
          have hfr : markRec cR2 F1 (ordOf (c (i + 1))) (insert (i / 2) u) =
              markRec c F1 (ordOf (c (i + 1))) (insert (i / 2) u) :=
            markRec_frame cR2 c n F1 _ _ hwR hme hmlt hagree
          rw [hfr] at ht1b ht1
          set M := markRec c F1 (ordOf (c (i + 1))) (insert (i / 2) u)
            with hM
          have hstep1 : prRunIter NS 1 (.down, ⟨c, i, j, u⟩) =
              (.down, ⟨cR2, ordOf (c (i + 1)), i + 1, insert (i / 2) u⟩) := by
            rw [prRunIter_one, prStep_down_fresh2 hcar hcdr]
          have hpop : prRunIter NS 1
              (.up, ⟨cR2, ordOf (c (i + 1)) + 1, i + 1, M⟩) =
              (.up, ⟨c, i + 1, j, M⟩) := by
            rw [prRunIter_one, prStep_up_pop_odd (by omega) (by omega)]
            have h1 : updC cR2 (i + 1) (boxE (tagOf (cR2 (i + 1)))
                (ordOf (c (i + 1)) + 1 - (ordOf (c (i + 1)) + 1) % 2)) = c := by
              rw [hcR2, revCell_tag,
                show ordOf (c (i + 1)) + 1 - (ordOf (c (i + 1)) + 1) % 2 =
                  ordOf (c (i + 1)) from by omega]
              exact revCell_restore hcan2 rfl
            have h2 : ordOf (cR2 (i + 1)) = j := by
              rw [hcR2]; exact revCell_ord hj
            rw [h1, h2]
          have hrun : prRunIter NS (1 + (t1 + 1)) (.down, ⟨c, i, j, u⟩) =
              (.up, ⟨c, i + 1, j, M⟩) :=
            prRun_trans (prRun_trans hstep1 ht1) hpop
          refine ⟨1 + (t1 + 1), ?_, ?_⟩
          · have hsub : insert (i / 2) u ⊆ M := hM ▸ markRec_mono _ _ _ _
            have hrc : remCnt n M ≤ remCnt n (insert (i / 2) u) :=
              @remCnt_mono n _ _ hsub
            rw [hfin]
            omega
          · rw [hfin]
            exact hrun
        · rw [Bool.not_eq_true] at hcdr
          have hfin : markRec c (remCnt n u) i u = insert (i / 2) u := by
            rw [hmrk]
            exact markRec_notfresh _ hcdr
          refine ⟨1, ?_, ?_⟩
          · have h1 : remCnt n (markRec c (remCnt n u) i u) = F1 := by
              rw [hfin]; omega
            omega
          · rw [prRunIter_one, prStep_down_none hcar hcdr, hfin]

lemma prMark_correct (n : ℕ) (hb : 2 * n < 2 ^ 32)
    (c : ℕ → ℕ) (u : Finset ℕ) (i : ℕ)
    (hw : WFc c n u) (he : i % 2 = 0) (hi : i < 2 * n) :
    prMark (2 * n) (4 * n + 1) c i u = some (c, markRec c n i u) := by
  by_cases h : i / 2 ∈ u
  · rw [prMark, if_pos h, markRec_marked _ h]
  · obtain ⟨t, htb, ht⟩ := prDown (2 * n) n le_rfl hb (remCnt n u) c u i
      (2 * n) le_rfl hw he hi h (by omega)
    have hstep : prRunIter (2 * n) 1
        (.up, ⟨c, i + 1, 2 * n, markRec c (remCnt n u) i u⟩) =
        (.done, ⟨c, i + 1, 2 * n, markRec c (remCnt n u) i u⟩) := by
      rw [prRunIter_one, prStep_up_exit_odd (by omega) (by omega)]
    have hle := remCnt_le n u
    obtain ⟨rest, hrest⟩ : ∃ rest, 4 * n + 1 = rest + (1 + t) :=
      ⟨4 * n + 1 - (1 + t), by omega⟩
    have hdone : prRunIter (2 * n) (4 * n + 1) (.down, ⟨c, i, 2 * n, u⟩) =
        (.done, ⟨c, i + 1, 2 * n, markRec c (remCnt n u) i u⟩) := by
      rw [hrest]
      exact prRun_trans (prRun_trans ht hstep)
        (prRun_done (2 * n) rest _)
    rw [prMark, if_neg h, hdone,
      markRec_stable c n (remCnt n u) _ _ _ _ le_rfl hw he hi le_rfl hle]

lemma prMarkAll_correct (n : ℕ) (hb : 2 * n < 2 ^ 32) :
    ∀ (roots : List ℕ) (c : ℕ → ℕ) (u : Finset ℕ), WFc c n u →
      (∀ x ∈ roots, x % 2 = 0 ∧ x < 2 * n) →
      prMarkAll (2 * n) (4 * n + 1) roots c u =
        some (c, markAll c n roots u) := by
  intro roots
  induction roots with
  | nil =>
      intro c u hw hr
      simp [prMarkAll, markAll]
  | cons r rs ih =>
      intro c u hw hr
      obtain ⟨hre, hrlt⟩ := hr r (by simp)
      rw [prMarkAll, prMark_correct n hb c u r hw hre hrlt]
      have hsub : u ⊆ markRec c n r u := markRec_mono _ _ _ _
      have h2 := ih c (markRec c n r u) (WFc_mono hsub hw)
        (fun x hx => hr x (List.mem_cons_of_mem _ hx))
      show prMarkAll (2 * n) (4 * n + 1) rs c (markRec c n r u) =
        some (c, markAll c n (r :: rs) u)
      rw [h2]
      have hfold : markAll c n (r :: rs) u =
          markAll c n rs (markRec c n r u) := by
        simp [markAll]
      rw [hfold]


/-- C1: on every well-formed pool (pair references even, in range and
canonically boxed) the recursive mark of lisp.hpp and the
pointer-reversal mark of lisp-pr.c, run over the same root set,
produce identical used bit-vectors, the pointer-reversal run restores
every cell it temporarily reversed, and the subsequent sweep produces
identical cells, free pointer and free count. -/
theorem c1_mark_equivalence
    (n : ℕ) (hb : 2 * n < 2 ^ 32) (c : ℕ → ℕ) (u0 : Finset ℕ)
    (hw : WFc c n u0) (roots : List ℕ)
    (hr : ∀ x ∈ roots, x % 2 = 0 ∧ x < 2 * n) :
    prMarkAll (2 * n) (4 * n + 1) roots c u0 =
      some (c, markAll c n roots u0) ∧
    (prMarkAll (2 * n) (4 * n + 1) roots c u0).map
        (fun cu => sweepF cu.1 cu.2 n) =
      some (sweepF c (markAll c n roots u0) n) := by
  have h := prMarkAll_correct n hb roots c u0 hw hr
  refine ⟨h, ?_⟩
  rw [h]
  rfl

/-- C1 witness: a four-pair pool whose root pair reaches a cycle
(pair 1 points back to pair 0) and a shared pair, marked from root
cell 0. -/
theorem c1_mark_equivalence_witness :
    prMarkAll (2 * 4) (4 * 4 + 1) [0] c1Cells ∅ =
      some (c1Cells, markAll c1Cells 4 [0] ∅) ∧
    (prMarkAll (2 * 4) (4 * 4 + 1) [0] c1Cells ∅).map
        (fun cu => sweepF cu.1 cu.2 4) =
      some (sweepF c1Cells (markAll c1Cells 4 [0] ∅) 4) :=
  c1_mark_equivalence 4 (by decide) c1Cells ∅
    (by
      intro k hk hknm
      unfold cellOK
      interval_cases k <;> decide)
    [0] (by decide)
